import Mathlib

/-!
# Verification of the scope-timer timing-tree engine

Shallow embedding of the `scope_timer` package:
* `record.py`   — `TimerRecord` (a single timed interval);
* `stats.py`    — `TimerStats` (aggregate statistics container);
* `node.py`     — `TimerNode` (a named node of the per-thread timing tree);
* `infer.py`    — time-unit / precision inference;
* `thread_local.py` and the facade `ScopeTimer` of `core.py`
  (`begin` / `end` / `reset` protocol).

Time instants are modelled as rationals (`ℚ`): the Python code uses
floating-point seconds from `time.perf_counter()`, and every claim under
verification is about the algebraic structure of the computations, not
about rounding.  Mutable object references are modelled by explicit state
passing; the parent back-reference of a node is modelled by the node's
position (path of names) inside the tree, so `node.parent` is the node at
the path with the last component dropped.
-/

/-- `record.py`, class `TimerRecord`: `begin: float = 0.`,
`end: Optional[float] = None`.  (`end` is a Lean keyword, hence `end_`.) -/
structure TimerRecord where
  begin : ℚ := 0
  end_ : Option ℚ := none
deriving Repr, DecidableEq, Inhabited

/-- `record.py`, `TimerRecord.elapsed`: `0.` while the record is open,
`end - begin` once closed. -/
def TimerRecord.elapsed (r : TimerRecord) : ℚ :=
  match r.end_ with
  | none => 0
  | some e => e - r.begin

/-- `stats.py`, class `TimerStats`. -/
structure TimerStats where
  total : ℚ
  min_ : ℚ
  max_ : ℚ
  avg : ℚ
  var_ : ℚ
deriving Repr, DecidableEq

/-- Errors surfaced by the embedded operations.  Python raises
`ValueError` for both scope-mismatch situations, `IndexError` for an
out-of-range list subscript, and cannot fail the remaining internal
look-ups at all (they follow object references); `invalidState` marks the
path-encoding artefacts that never occur on protocol states. -/
inductive TimerError where
  | endWithoutBegin
  | mismatch
  | indexError
  | invalidState
deriving Repr, DecidableEq

/-- `node.py`, class `TimerNode`.  `branch_nodes` is a Python `dict`
(insertion-ordered, unique keys), modelled as an association list.
The non-owning `parent` back-reference is not a field here: in the pure
tree it is recovered from the node's position (see the facade below). -/
inductive TimerNode where
  | mk
    (name : String)
    (records : List TimerRecord)
    (level : Nat)
    (branch_nodes : List (String × TimerNode))
    (ncall : Nat)
    (is_root : Bool)
    (stats : Option TimerStats)
    (preprocessed : Bool)
deriving Repr

namespace TimerNode

def name : TimerNode → String
  | .mk n _ _ _ _ _ _ _ => n

def records : TimerNode → List TimerRecord
  | .mk _ r _ _ _ _ _ _ => r

def level : TimerNode → Nat
  | .mk _ _ l _ _ _ _ _ => l

def branch_nodes : TimerNode → List (String × TimerNode)
  | .mk _ _ _ b _ _ _ _ => b

def ncall : TimerNode → Nat
  | .mk _ _ _ _ c _ _ _ => c

def is_root : TimerNode → Bool
  | .mk _ _ _ _ _ i _ _ => i

def stats : TimerNode → Option TimerStats
  | .mk _ _ _ _ _ _ s _ => s

def preprocessed : TimerNode → Bool
  | .mk _ _ _ _ _ _ _ p => p

@[simp] theorem name_mk (n r l b c i s p) : name (.mk n r l b c i s p) = n := rfl
@[simp] theorem records_mk (n r l b c i s p) : records (.mk n r l b c i s p) = r := rfl
@[simp] theorem level_mk (n r l b c i s p) : level (.mk n r l b c i s p) = l := rfl
@[simp] theorem branch_nodes_mk (n r l b c i s p) :
    branch_nodes (.mk n r l b c i s p) = b := rfl
@[simp] theorem ncall_mk (n r l b c i s p) : ncall (.mk n r l b c i s p) = c := rfl
@[simp] theorem is_root_mk (n r l b c i s p) : is_root (.mk n r l b c i s p) = i := rfl
@[simp] theorem stats_mk (n r l b c i s p) : stats (.mk n r l b c i s p) = s := rfl
@[simp] theorem preprocessed_mk (n r l b c i s p) :
    preprocessed (.mk n r l b c i s p) = p := rfl

theorem ext_iff (n m : TimerNode) :
    n = m ↔ n.name = m.name ∧ n.records = m.records ∧ n.level = m.level ∧
      n.branch_nodes = m.branch_nodes ∧ n.ncall = m.ncall ∧ n.is_root = m.is_root ∧
      n.stats = m.stats ∧ n.preprocessed = m.preprocessed := by
  cases n; cases m
  simp only [name_mk, records_mk, level_mk, branch_nodes_mk, ncall_mk, is_root_mk,
    stats_mk, preprocessed_mk, mk.injEq]

/-- `node.py`, `TimerNode.__init__(name, level=0, parent=None)`:
fresh node with no records, no children, `ncall = 0`,
`is_root = True if level == 0 else False`, no cached stats. -/
def new (name : String) (level : Nat) : TimerNode :=
  .mk name [] level [] 0 (level == 0) none false

/-- `node.py`, `TimerNode.begin_record`: append a fresh open record with
`begin = now` (`time.perf_counter()` is passed in as `now`). -/
def begin_record (n : TimerNode) (now : ℚ) : TimerNode :=
  .mk n.name (n.records ++ [{ begin := now }]) n.level n.branch_nodes
    n.ncall n.is_root n.stats n.preprocessed

/-- `node.py`, `TimerNode.end_record`:
`self.records[self.ncall].end = time.perf_counter(); self.ncall += 1;
self.preprocessed = False`.  The subscript `records[ncall]` raises
`IndexError` when no open record exists (`ncall ≥ len(records)`). -/
def end_record (n : TimerNode) (now : ℚ) : Except TimerError TimerNode :=
  if h : n.ncall < n.records.length then
    .ok (.mk n.name
      (n.records.set n.ncall { n.records.get ⟨n.ncall, h⟩ with end_ := some now })
      n.level n.branch_nodes (n.ncall + 1) n.is_root n.stats false)
  else
    .error .indexError

/-- `node.py`, `TimerNode.get_or_create_branch`: return the existing child
registered under `name`, or create a child with `level = self.level + 1`
(and the parent back-reference, which in this pure tree is the position
itself) and register it.  Returns the child together with the updated
parent. -/
def get_or_create_branch (n : TimerNode) (name : String) :
    TimerNode × TimerNode :=
  match n.branch_nodes.lookup name with
  | some branch => (branch, n)
  | none =>
    let branch := TimerNode.new name (n.level + 1)
    (branch,
      .mk n.name n.records n.level (n.branch_nodes ++ [(name, branch)])
        n.ncall n.is_root n.stats n.preprocessed)

/-- `node.py`, `TimerNode.has_open_record`: `ncall < len(records)`. -/
def has_open_record (n : TimerNode) : Bool :=
  n.ncall < n.records.length

/-- Python `min` over a non-empty sequence (the callers guard emptiness
with their `ncall == 0` check). -/
def pymin : List ℚ → ℚ
  | [] => 0
  | x :: xs => xs.foldl min x

/-- Python `max` over a non-empty sequence. -/
def pymax : List ℚ → ℚ
  | [] => 0
  | x :: xs => xs.foldl max x

/-- `node.py`, `TimerNode._get_total_time`:
`0.` if `ncall == 0`, else `sum(r.elapsed for r in records[:ncall])`. -/
def _get_total_time (n : TimerNode) : ℚ :=
  if n.ncall = 0 then 0
  else ((n.records.take n.ncall).map TimerRecord.elapsed).sum

/-- `node.py`, `TimerNode._get_min_time`. -/
def _get_min_time (n : TimerNode) : ℚ :=
  if n.ncall = 0 then 0
  else pymin ((n.records.take n.ncall).map TimerRecord.elapsed)

/-- `node.py`, `TimerNode._get_max_time`. -/
def _get_max_time (n : TimerNode) : ℚ :=
  if n.ncall = 0 then 0
  else pymax ((n.records.take n.ncall).map TimerRecord.elapsed)

/-- `node.py`, `TimerNode._get_avg_time`:
`0.` if `ncall == 0`, else `_get_total_time() / ncall`. -/
def _get_avg_time (n : TimerNode) : ℚ :=
  if n.ncall = 0 then 0
  else n._get_total_time / (n.ncall : ℚ)

/-- `node.py`, `TimerNode._get_var_time`: population variance over the
closed records; `0.` if `ncall < 2`. -/
def _get_var_time (n : TimerNode) : ℚ :=
  if n.ncall < 2 then 0
  else
    ((n.records.take n.ncall).map
      (fun r => (r.elapsed - n._get_avg_time) ^ 2)).sum / (n.ncall : ℚ)

/-- `node.py`, property `TimerNode.total_time`: the cached value when
`stats` is present, the on-demand value otherwise. -/
def total_time (n : TimerNode) : ℚ :=
  match n.stats with
  | none => n._get_total_time
  | some s => s.total

/-- `node.py`, property `TimerNode.min_time`. -/
def min_time (n : TimerNode) : ℚ :=
  match n.stats with
  | none => n._get_min_time
  | some s => s.min_

/-- `node.py`, property `TimerNode.max_time`. -/
def max_time (n : TimerNode) : ℚ :=
  match n.stats with
  | none => n._get_max_time
  | some s => s.max_

/-- `node.py`, property `TimerNode.avg_time`. -/
def avg_time (n : TimerNode) : ℚ :=
  match n.stats with
  | none => n._get_avg_time
  | some s => s.avg

/-- `node.py`, property `TimerNode.var_time`. -/
def var_time (n : TimerNode) : ℚ :=
  match n.stats with
  | none => n._get_var_time
  | some s => s.var_

/-- `node.py`, `TimerNode._build_stats`: cache the five on-demand
aggregates into `stats`. -/
def _build_stats (n : TimerNode) : TimerNode :=
  .mk n.name n.records n.level n.branch_nodes n.ncall n.is_root
    (some ⟨n._get_total_time, n._get_min_time, n._get_max_time,
      n._get_avg_time, n._get_var_time⟩)
    n.preprocessed

end TimerNode

mutual

/-- `node.py`, `TimerNode.build_stats_recursive`: `self._build_stats()`,
recurse into every child, then `self.preprocessed = True`. -/
def TimerNode.build_stats_recursive : TimerNode → TimerNode
  | .mk n r l b c i s p =>
    match TimerNode._build_stats (.mk n r l b c i s p) with
    | .mk n' r' l' _ c' i' s' _ =>
      .mk n' r' l' (TimerNode.buildStatsChildren b) c' i' s' true

/-- Recursion of `build_stats_recursive` over the child map. -/
def TimerNode.buildStatsChildren :
    List (String × TimerNode) → List (String × TimerNode)
  | [] => []
  | (k, child) :: rest =>
    (k, child.build_stats_recursive) :: TimerNode.buildStatsChildren rest

end

mutual

/-- All nodes of the subtree rooted at `n` (self first, then children in
insertion order, depth-first). -/
def TimerNode.collectNodes : TimerNode → List TimerNode
  | .mk n r l b c i s p =>
    TimerNode.mk n r l b c i s p :: TimerNode.collectChildNodes b

/-- Recursion of `collectNodes` over the child map. -/
def TimerNode.collectChildNodes : List (String × TimerNode) → List TimerNode
  | [] => []
  | (_, child) :: rest =>
    child.collectNodes ++ TimerNode.collectChildNodes rest

end

example :
    (((TimerNode.new "a" 0)).begin_record 3).end_record 5 =
      .ok (.mk "a" [⟨3, some 5⟩] 0 [] 1 true none false) := by
  rfl

example : ((TimerNode.new "a" 0).get_or_create_branch "b").1.level = 1 := by
  rfl

/-! ## `infer.py` — time-unit / precision inference -/

/-- A concrete display unit: `"s"`, `"ms"` or `"us"` in the Python code. -/
inductive TimeUnit where
  | s
  | ms
  | us
deriving Repr, DecidableEq

/-- A requested unit: one of `"auto"`, `"s"`, `"ms"`, `"us"`. -/
inductive TimeUnitReq where
  | auto
  | s
  | ms
  | us
deriving Repr, DecidableEq

/-- A requested precision: `"auto"` or a Python `int`. -/
inductive PrecisionReq where
  | auto
  | val (n : Int)
deriving Repr, DecidableEq

/-- `infer.py`, class `TimeProperty`. -/
structure TimeProperty where
  unit : TimeUnit
  scale : Int
  precision : Int
deriving Repr, DecidableEq

/-- `infer.py`, `_infer_time_unit`: explicit units bypass inference;
otherwise `s` for `second_time >= 1.0`, `ms` for `>= 0.001`, else `us`. -/
def _infer_time_unit (second_time : ℚ) (time_unit : TimeUnitReq) : TimeUnit :=
  match time_unit with
  | .s => .s
  | .ms => .ms
  | .us => .us
  | .auto =>
    if second_time ≥ 1 then .s
    else if second_time ≥ 1 / 1000 then .ms
    else .us

/-- `infer.py`, `_infer_time_scaling`. -/
def _infer_time_scaling (time_unit : TimeUnit) : Int :=
  match time_unit with
  | .s => 1
  | .ms => 1000
  | .us => 1000000

/-- Python `int(q)` — truncation toward zero. -/
def ratTrunc (q : ℚ) : Int :=
  if 0 ≤ q then ⌊q⌋ else ⌈q⌉

/-- `infer.py`, `_num_digits`: `0` when `int(n) == 0`, otherwise
`int(log10(abs(int(n)))) + 1`, i.e. the number of decimal digits of the
truncated integer part. -/
def _num_digits (n : ℚ) : Int :=
  let n_int := ratTrunc n
  if n_int = 0 then 0
  else (Nat.log 10 n_int.natAbs : Int) + 1

/-- `infer.py`, `_infer_time_precision`: an explicit integer precision is
returned unchanged; `us` always yields `1`; otherwise with
`digit = _num_digits(second_time * scale)` and cap `6`: `0` when
`digit >= 6`, `6` when `digit <= 0`, else `6 - digit`. -/
def _infer_time_precision (second_time : ℚ) (time_unit : TimeUnit)
    (scale : Int) (precision : PrecisionReq) : Int :=
  match precision with
  | .val i => i
  | .auto =>
    let scaled_time := second_time * (scale : ℚ)
    if time_unit = .us then 1
    else
      let precision_cap : Int := 6
      let digit := _num_digits scaled_time
      if digit ≥ precision_cap then 0
      else if digit ≤ 0 then precision_cap
      else precision_cap - digit

/-- `infer.py`, `infer_time_property`. -/
def infer_time_property (worst_time : ℚ) (unit : TimeUnitReq)
    (precision : PrecisionReq) : TimeProperty :=
  let time_unit := _infer_time_unit worst_time unit
  let time_scale := _infer_time_scaling time_unit
  let time_precision :=
    _infer_time_precision worst_time time_unit time_scale precision
  ⟨time_unit, time_scale, time_precision⟩

example : infer_time_property 1 .auto .auto = ⟨.s, 1, 5⟩ := by
  norm_num [infer_time_property, _infer_time_unit, _infer_time_scaling,
    _infer_time_precision, _num_digits, ratTrunc, Nat.log_one_right]
  decide

example : infer_time_property (9 / 10000) .auto .auto = ⟨.us, 1000000, 1⟩ := by
  norm_num [infer_time_property, _infer_time_unit, _infer_time_scaling,
    _infer_time_precision]

/-! ## `thread_local.py` and the facade of `core.py`

`core.py` drives the per-thread protocol: `begin(name)` descends from the
active node (creating roots/children on demand) and opens a record on the
destination; `end(name)` validates the name against the active node,
closes its open record and restores the parent as active.  The Python
active pointer is an object reference into the tree; here it is the path
of names from the root mapping to that node (`none` = idle), so
`cur_node.parent` is the path with its last component dropped. -/

/-- `thread_local.py`, class `TimerThreadLocal`. -/
structure TimerThreadLocal where
  active_node : Option (List String)
  root_nodes : List (String × TimerNode)
  time_property : Option TimeProperty
deriving Repr

/-- `thread_local.py`, `TimerThreadLocal.__init__`. -/
def TimerThreadLocal.init : TimerThreadLocal := ⟨none, [], none⟩

/-- `thread_local.py`, `TimerThreadLocal.reset`: clear the active pointer,
the root mapping and the cached display property of this thread. -/
def TimerThreadLocal.reset (_ : TimerThreadLocal) : TimerThreadLocal :=
  ⟨none, [], none⟩

/-- Python in-place update of the value stored under an existing dict key
(assignment through the object reference held by the dict). -/
def replaceEntry : List (String × TimerNode) → String → TimerNode →
    List (String × TimerNode)
  | [], _, _ => []
  | (k1, v1) :: rest, k, v =>
    if k1 = k then (k, v) :: replaceEntry rest k v
    else (k1, v1) :: replaceEntry rest k v

/-- Update of a node's child map through the reference held there. -/
def TimerNode.setBranch (n : TimerNode) (k : String) (v : TimerNode) :
    TimerNode :=
  .mk n.name n.records n.level (replaceEntry n.branch_nodes k v)
    n.ncall n.is_root n.stats n.preprocessed

/-- Dereference a path: the node reached from `n` by following child
names.  (Following a Python object reference cannot fail; `none` only
flags a path that denotes no node, which never happens on protocol
states.) -/
def TimerNode.getAt : TimerNode → List String → Option TimerNode
  | n, [] => some n
  | n, k :: rest =>
    match n.branch_nodes.lookup k with
    | none => none
    | some c => c.getAt rest

/-- Apply `f` to the node a path denotes and write the result back. -/
def TimerNode.modifyAtE (f : TimerNode → Except TimerError TimerNode) :
    TimerNode → List String → Except TimerError TimerNode
  | n, [] => f n
  | n, k :: rest =>
    match n.branch_nodes.lookup k with
    | none => .error .invalidState
    | some c =>
      match TimerNode.modifyAtE f c rest with
      | .error e => .error e
      | .ok c' => .ok (n.setBranch k c')

/-- Dereference a path starting at the root mapping. -/
def rootsGetAt (roots : List (String × TimerNode)) :
    List String → Option TimerNode
  | [] => none
  | r :: rest =>
    match roots.lookup r with
    | none => none
    | some n => n.getAt rest

/-- Apply `f` at a path starting at the root mapping. -/
def rootsModifyAtE (roots : List (String × TimerNode)) (p : List String)
    (f : TimerNode → Except TimerError TimerNode) :
    Except TimerError (List (String × TimerNode)) :=
  match p with
  | [] => .error .invalidState
  | r :: rest =>
    match roots.lookup r with
    | none => .error .invalidState
    | some n =>
      match n.modifyAtE f rest with
      | .error e => .error e
      | .ok n' => .ok (replaceEntry roots r n')

/-- `core.py`, `ScopeTimer.begin`, non-idle case, at the active node:
`tr = cur_node.child_nodes.get(name)`, created and registered if absent
(`get_or_create_branch` in `node.py`), then `tr.begin_record()`. -/
def TimerNode.begin_branch (n : TimerNode) (name : String) (now : ℚ) :
    TimerNode :=
  let res := n.get_or_create_branch name
  res.2.setBranch name (res.1.begin_record now)

/-- `core.py`, `ScopeTimer.begin(name)`: from idle, look up or create a
root named `name`; otherwise look up or create a child of the active
node; make it active and open a record on it. -/
def ScopeTimer.begin (s : TimerThreadLocal) (name : String) (now : ℚ) :
    Except TimerError TimerThreadLocal :=
  match s.active_node with
  | none =>
    match s.root_nodes.lookup name with
    | some tr =>
      .ok ⟨some [name], replaceEntry s.root_nodes name (tr.begin_record now),
        s.time_property⟩
    | none =>
      .ok ⟨some [name],
        s.root_nodes ++ [(name, (TimerNode.new name 0).begin_record now)],
        s.time_property⟩
  | some p =>
    match rootsModifyAtE s.root_nodes p
        (fun x => .ok (x.begin_branch name now)) with
    | .error e => .error e
    | .ok roots' => .ok ⟨some (p ++ [name]), roots', s.time_property⟩

/-- `core.py`, `ScopeTimer.end(name)`: raise (`ValueError`) when idle or
when `name` differs from the active node's name; otherwise
`cur_node.end_record()` and restore the parent (idle when the active node
was a root) as the active node. -/
def ScopeTimer.end_ (s : TimerThreadLocal) (name : String) (now : ℚ) :
    Except TimerError TimerThreadLocal :=
  match s.active_node with
  | none => .error .endWithoutBegin
  | some p =>
    match rootsGetAt s.root_nodes p with
    | none => .error .invalidState
    | some cur =>
      if cur.name ≠ name then .error .mismatch
      else
        match rootsModifyAtE s.root_nodes p (fun x => x.end_record now) with
        | .error e => .error e
        | .ok roots' =>
          .ok ⟨if cur.is_root then none else some p.dropLast, roots',
            s.time_property⟩

/-- `core.py`, `ScopeTimer.reset`: clear the calling thread's state
(delegates to `TimerThreadLocal.reset` in `thread_local.py`). -/
def ScopeTimer.reset (s : TimerThreadLocal) : TimerThreadLocal :=
  s.reset

/-- The two `ValueError` situations the spec groups as the
Scope-Mismatch error kind. -/
def TimerError.isScopeMismatch : TimerError → Bool
  | .endWithoutBegin => true
  | .mismatch => true
  | .indexError => false
  | .invalidState => false

/-- `threading.local`: an independent `TimerThreadLocal` per thread
identity. -/
def ThreadTable := Nat → TimerThreadLocal

/-- `ScopeTimer.reset` acts only on the calling thread's state. -/
def ThreadTable.reset (m : ThreadTable) (tid : Nat) : ThreadTable :=
  fun t => if t = tid then ScopeTimer.reset (m tid) else m t

/-- A single facade call on one thread's state. -/
inductive Event where
  | begin (name : String) (now : ℚ)
  | end_ (name : String) (now : ℚ)
  | reset

/-- Dispatch of one facade call. -/
def ScopeTimer.step (s : TimerThreadLocal) :
    Event → Except TimerError TimerThreadLocal
  | .begin name now => ScopeTimer.begin s name now
  | .end_ name now => ScopeTimer.end_ s name now
  | .reset => .ok (ScopeTimer.reset s)

/-- States a thread can be in: the initial state and everything produced
from it by successful facade calls. -/
inductive Reachable : TimerThreadLocal → Prop
  | init : Reachable TimerThreadLocal.init
  | step {s e s'} : Reachable s → ScopeTimer.step s e = .ok s' → Reachable s'

/-! ## Association-list lemmas (Python `dict` with unique keys) -/

theorem lookup_to_mem {l : List (String × TimerNode)} {k : String}
    {v : TimerNode} (h : l.lookup k = some v) : (k, v) ∈ l := by
  induction l with
  | nil => simp [List.lookup] at h
  | cons e rest ih =>
    obtain ⟨k', v'⟩ := e
    by_cases hk : k = k'
    · subst hk
      simp [List.lookup] at h
      simp [h]
    · simp [List.lookup, beq_false_of_ne hk] at h
      exact List.mem_cons_of_mem _ (ih h)

theorem lookup_none_iff {l : List (String × TimerNode)} {k : String} :
    l.lookup k = none ↔ k ∉ l.map Prod.fst := by
  induction l with
  | nil => simp [List.lookup]
  | cons e rest ih =>
    obtain ⟨k', v'⟩ := e
    by_cases hk : k = k'
    · subst hk; simp [List.lookup]
    · simp [List.lookup, beq_false_of_ne hk, ih, hk]

theorem mem_to_lookup {l : List (String × TimerNode)} {k : String}
    {v : TimerNode} (hnd : (l.map Prod.fst).Nodup) (h : (k, v) ∈ l) :
    l.lookup k = some v := by
  induction l with
  | nil => simp at h
  | cons e rest ih =>
    obtain ⟨k', v'⟩ := e
    simp only [List.map_cons, List.nodup_cons] at hnd
    rcases List.mem_cons.mp h with h1 | h1
    · obtain ⟨rfl, rfl⟩ := Prod.mk.injEq .. ▸ h1
      simp [List.lookup]
    · have hk : k ≠ k' := by
        rintro rfl
        exact hnd.1 (List.mem_map.mpr ⟨(k, v), h1, rfl⟩)
      simp [List.lookup, beq_false_of_ne hk]
      exact ih hnd.2 h1

theorem replaceEntry_keys (l : List (String × TimerNode)) (k : String)
    (v : TimerNode) : (replaceEntry l k v).map Prod.fst = l.map Prod.fst := by
  induction l with
  | nil => rfl
  | cons e rest ih =>
    obtain ⟨k1, v1⟩ := e
    by_cases hk : k1 = k
    · subst hk; simp [replaceEntry, ih]
    · simp [replaceEntry, hk, ih]

theorem replaceEntry_lookup_self {l : List (String × TimerNode)} {k : String}
    (v : TimerNode) (h : k ∈ l.map Prod.fst) :
    (replaceEntry l k v).lookup k = some v := by
  induction l with
  | nil => simp at h
  | cons e rest ih =>
    obtain ⟨k1, v1⟩ := e
    by_cases hk : k1 = k
    · subst hk; simp [replaceEntry, List.lookup]
    · simp only [List.map_cons, List.mem_cons] at h
      rcases h with h | h
      · exact absurd h.symm hk
      · simp only [replaceEntry, if_neg hk, List.lookup,
          beq_false_of_ne fun hkk => hk hkk.symm]
        exact ih h

theorem replaceEntry_lookup_ne {l : List (String × TimerNode)} {k k' : String}
    (v : TimerNode) (h : k' ≠ k) :
    (replaceEntry l k v).lookup k' = l.lookup k' := by
  induction l with
  | nil => rfl
  | cons e rest ih =>
    obtain ⟨k1, v1⟩ := e
    by_cases hk : k1 = k
    · subst hk
      simp only [replaceEntry, if_pos rfl, List.lookup,
        beq_false_of_ne h]
      exact ih
    · by_cases hk' : k' = k1
      · subst hk'
        simp [replaceEntry, if_neg hk, List.lookup]
      · simp only [replaceEntry, if_neg hk, List.lookup,
          beq_false_of_ne hk']
        exact ih

theorem replaceEntry_mem {l : List (String × TimerNode)} {k : String}
    {v : TimerNode} {x : String × TimerNode} (h : x ∈ replaceEntry l k v) :
    (x.1 = k ∧ x.2 = v) ∨ (x ∈ l ∧ x.1 ≠ k) := by
  induction l with
  | nil => simp [replaceEntry] at h
  | cons e rest ih =>
    obtain ⟨k1, v1⟩ := e
    by_cases hk : k1 = k
    · subst hk
      simp only [replaceEntry, if_pos rfl, ite_true, eq_self_iff_true,
        List.mem_cons] at h
      rcases h with h | h
      · subst h; simp
      · rcases ih h with h1 | h1
        · exact Or.inl h1
        · exact Or.inr ⟨List.mem_cons_of_mem _ h1.1, h1.2⟩
    · simp only [replaceEntry, if_neg hk, List.mem_cons] at h
      rcases h with h | h
      · subst h; exact Or.inr ⟨List.mem_cons_self _ _, hk⟩
      · rcases ih h with h1 | h1
        · exact Or.inl h1
        · exact Or.inr ⟨List.mem_cons_of_mem _ h1.1, h1.2⟩

theorem lookup_append_none {l l' : List (String × TimerNode)} {k : String}
    (h : l.lookup k = none) : (l ++ l').lookup k = l'.lookup k := by
  induction l with
  | nil => rfl
  | cons e rest ih =>
    obtain ⟨k1, v1⟩ := e
    by_cases hk : k = k1
    · subst hk; simp [List.lookup] at h
    · simp only [List.lookup, beq_false_of_ne hk] at h
      simp only [List.cons_append, List.lookup, beq_false_of_ne hk]
      exact ih h

theorem lookup_append_some {l l' : List (String × TimerNode)} {k : String}
    {v : TimerNode} (h : l.lookup k = some v) : (l ++ l').lookup k = some v := by
  induction l with
  | nil => simp [List.lookup] at h
  | cons e rest ih =>
    obtain ⟨k1, v1⟩ := e
    by_cases hk : k = k1
    · subst hk
      simp only [List.lookup, beq_self_eq_true] at h ⊢
      simpa using h
    · simp only [List.lookup, beq_false_of_ne hk] at h
      simp only [List.cons_append, List.lookup, beq_false_of_ne hk]
      exact ih h

theorem lookup_append_single_ne {l : List (String × TimerNode)}
    {k k' : String} (v : TimerNode) (h : k' ≠ k) :
    (l ++ [(k, v)]).lookup k' = l.lookup k' := by
  cases hl : l.lookup k' with
  | none =>
    rw [lookup_append_none hl]
    simp [List.lookup, beq_false_of_ne h]
  | some w => exact lookup_append_some hl

theorem nodup_keys_append_single {ks : List String} {k : String}
    (hnd : ks.Nodup) (hk : k ∉ ks) : (ks ++ [k]).Nodup := by
  rw [List.nodup_append]
  refine ⟨hnd, List.nodup_singleton k, ?_⟩
  intro a ha hb
  simp only [List.mem_singleton] at hb
  subst hb
  exact hk ha

/-! ## Field behaviour of the node operations -/

namespace TimerNode

@[simp] theorem begin_record_name (n : TimerNode) (now : ℚ) :
    (n.begin_record now).name = n.name := rfl
@[simp] theorem begin_record_records (n : TimerNode) (now : ℚ) :
    (n.begin_record now).records = n.records ++ [{ begin := now }] := rfl
@[simp] theorem begin_record_level (n : TimerNode) (now : ℚ) :
    (n.begin_record now).level = n.level := rfl
@[simp] theorem begin_record_branch_nodes (n : TimerNode) (now : ℚ) :
    (n.begin_record now).branch_nodes = n.branch_nodes := rfl
@[simp] theorem begin_record_ncall (n : TimerNode) (now : ℚ) :
    (n.begin_record now).ncall = n.ncall := rfl
@[simp] theorem begin_record_is_root (n : TimerNode) (now : ℚ) :
    (n.begin_record now).is_root = n.is_root := rfl
@[simp] theorem begin_record_stats (n : TimerNode) (now : ℚ) :
    (n.begin_record now).stats = n.stats := rfl

@[simp] theorem setBranch_name (n : TimerNode) (k : String) (v : TimerNode) :
    (n.setBranch k v).name = n.name := rfl
@[simp] theorem setBranch_records (n : TimerNode) (k : String) (v : TimerNode) :
    (n.setBranch k v).records = n.records := rfl
@[simp] theorem setBranch_level (n : TimerNode) (k : String) (v : TimerNode) :
    (n.setBranch k v).level = n.level := rfl
@[simp] theorem setBranch_branch_nodes (n : TimerNode) (k : String)
    (v : TimerNode) :
    (n.setBranch k v).branch_nodes = replaceEntry n.branch_nodes k v := rfl
@[simp] theorem setBranch_ncall (n : TimerNode) (k : String) (v : TimerNode) :
    (n.setBranch k v).ncall = n.ncall := rfl
@[simp] theorem setBranch_is_root (n : TimerNode) (k : String) (v : TimerNode) :
    (n.setBranch k v).is_root = n.is_root := rfl
@[simp] theorem setBranch_stats (n : TimerNode) (k : String) (v : TimerNode) :
    (n.setBranch k v).stats = n.stats := rfl

@[simp] theorem new_name (s : String) (lvl : Nat) : (new s lvl).name = s := rfl
@[simp] theorem new_records (s : String) (lvl : Nat) :
    (new s lvl).records = [] := rfl
@[simp] theorem new_level (s : String) (lvl : Nat) : (new s lvl).level = lvl := rfl
@[simp] theorem new_branch_nodes (s : String) (lvl : Nat) :
    (new s lvl).branch_nodes = [] := rfl
@[simp] theorem new_ncall (s : String) (lvl : Nat) : (new s lvl).ncall = 0 := rfl
@[simp] theorem new_is_root (s : String) (lvl : Nat) :
    (new s lvl).is_root = (lvl == 0) := rfl
@[simp] theorem new_stats (s : String) (lvl : Nat) : (new s lvl).stats = none := rfl

/-- The child that `begin` descends into: the existing child registered
under `name`, or a freshly constructed one. -/
def childTemplate (n : TimerNode) (name : String) : TimerNode :=
  match n.branch_nodes.lookup name with
  | some c => c
  | none => TimerNode.new name (n.level + 1)

theorem begin_branch_eq (n : TimerNode) (name : String) (now : ℚ) :
    n.begin_branch name now =
      (match n.branch_nodes.lookup name with
       | some _ => n
       | none =>
         TimerNode.mk n.name n.records n.level
           (n.branch_nodes ++ [(name, TimerNode.new name (n.level + 1))])
           n.ncall n.is_root n.stats n.preprocessed).setBranch name
        ((n.childTemplate name).begin_record now) := by
  unfold begin_branch get_or_create_branch childTemplate
  cases n.branch_nodes.lookup name <;> rfl

@[simp] theorem begin_branch_name (n : TimerNode) (name : String) (now : ℚ) :
    (n.begin_branch name now).name = n.name := by
  rw [begin_branch_eq]; cases n.branch_nodes.lookup name <;> rfl

@[simp] theorem begin_branch_records (n : TimerNode) (name : String) (now : ℚ) :
    (n.begin_branch name now).records = n.records := by
  rw [begin_branch_eq]; cases n.branch_nodes.lookup name <;> rfl

@[simp] theorem begin_branch_level (n : TimerNode) (name : String) (now : ℚ) :
    (n.begin_branch name now).level = n.level := by
  rw [begin_branch_eq]; cases n.branch_nodes.lookup name <;> rfl

@[simp] theorem begin_branch_ncall (n : TimerNode) (name : String) (now : ℚ) :
    (n.begin_branch name now).ncall = n.ncall := by
  rw [begin_branch_eq]; cases n.branch_nodes.lookup name <;> rfl

@[simp] theorem begin_branch_is_root (n : TimerNode) (name : String) (now : ℚ) :
    (n.begin_branch name now).is_root = n.is_root := by
  rw [begin_branch_eq]; cases n.branch_nodes.lookup name <;> rfl

@[simp] theorem begin_branch_stats (n : TimerNode) (name : String) (now : ℚ) :
    (n.begin_branch name now).stats = n.stats := by
  rw [begin_branch_eq]; cases n.branch_nodes.lookup name <;> rfl

theorem begin_branch_lookup_self (n : TimerNode) (name : String) (now : ℚ) :
    (n.begin_branch name now).branch_nodes.lookup name =
      some ((n.childTemplate name).begin_record now) := by
  rw [begin_branch_eq]
  cases h : n.branch_nodes.lookup name with
  | some c =>
    simp only [setBranch_branch_nodes]
    exact replaceEntry_lookup_self _
      (List.mem_map.mpr ⟨(name, c), lookup_to_mem h, rfl⟩)
  | none =>
    simp only [setBranch_branch_nodes, branch_nodes_mk]
    exact replaceEntry_lookup_self _ (by simp)

theorem begin_branch_keys_of_mem {n : TimerNode} {name : String}
    (h : name ∈ n.branch_nodes.map Prod.fst) (now : ℚ) :
    (n.begin_branch name now).branch_nodes.map Prod.fst =
      n.branch_nodes.map Prod.fst := by
  rw [begin_branch_eq]
  cases hl : n.branch_nodes.lookup name with
  | some c => simp [replaceEntry_keys]
  | none => exact absurd h (lookup_none_iff.mp hl)

/-- Entries of the child map after `begin_branch`: either the descended
child itself, or an untouched entry whose key differs from `name`. -/
theorem begin_branch_mem {n : TimerNode} {name : String} {now : ℚ}
    {x : String × TimerNode}
    (h : x ∈ (n.begin_branch name now).branch_nodes) :
    (x.1 = name ∧ x.2 = (n.childTemplate name).begin_record now) ∨
      (x ∈ n.branch_nodes ∧ x.1 ≠ name) := by
  rw [begin_branch_eq] at h
  cases hl : n.branch_nodes.lookup name with
  | some c =>
    rw [hl] at h
    simp only [setBranch_branch_nodes] at h
    exact replaceEntry_mem h
  | none =>
    rw [hl] at h
    simp only [setBranch_branch_nodes, branch_nodes_mk] at h
    rcases replaceEntry_mem h with h1 | h1
    · exact Or.inl h1
    · rcases List.mem_append.mp h1.1 with h2 | h2
      · exact Or.inr ⟨h2, h1.2⟩
      · simp only [List.mem_singleton] at h2
        subst h2
        exact absurd rfl h1.2

end TimerNode

/-! ## Record-level and tree-level invariants -/

/-- Bookkeeping of a node with no open record: `ncall` counts all records
and every record is closed. -/
def TimerNode.closedRecInv (n : TimerNode) : Prop :=
  n.records.length = n.ncall ∧ ∀ r ∈ n.records, r.end_ ≠ none

/-- Bookkeeping of a node with one open record: the first `ncall` records
are closed and one extra open record sits at the end. -/
def TimerNode.openRecInv (n : TimerNode) : Prop :=
  n.records.length = n.ncall + 1 ∧
    (∀ r ∈ n.records.take n.ncall, r.end_ ≠ none) ∧
    (∀ r ∈ n.records.drop n.ncall, r.end_ = none)

/-- `TreeInv n lvl act`: well-formedness of the subtree rooted at `n`
sitting at depth `lvl`.  `act = none`: no node of the subtree is on the
active path, so every record in the subtree is closed.  `act = some rest`:
`n` is on the active path, which continues into the children along the
names in `rest` (`[]` meaning `n` is the active node itself); exactly the
nodes along the path hold one open record each.  Throughout: child-map
keys are unique and match the child names, levels increase by one, and
`is_root` holds exactly at depth `0`. -/
inductive TreeInv : TimerNode → Nat → Option (List String) → Prop
  | off {n : TimerNode} {lvl : Nat} :
      n.level = lvl →
      n.is_root = (lvl == 0) →
      n.closedRecInv →
      (n.branch_nodes.map Prod.fst).Nodup →
      (∀ k c, (k, c) ∈ n.branch_nodes → c.name = k) →
      (∀ k c, (k, c) ∈ n.branch_nodes → TreeInv c (lvl + 1) none) →
      TreeInv n lvl none
  | here {n : TimerNode} {lvl : Nat} :
      n.level = lvl →
      n.is_root = (lvl == 0) →
      n.openRecInv →
      (n.branch_nodes.map Prod.fst).Nodup →
      (∀ k c, (k, c) ∈ n.branch_nodes → c.name = k) →
      (∀ k c, (k, c) ∈ n.branch_nodes → TreeInv c (lvl + 1) none) →
      TreeInv n lvl (some [])
  | deeper {n : TimerNode} {lvl : Nat} {k : String} {rest : List String}
      {c : TimerNode} :
      n.level = lvl →
      n.is_root = (lvl == 0) →
      n.openRecInv →
      (n.branch_nodes.map Prod.fst).Nodup →
      n.branch_nodes.lookup k = some c →
      TreeInv c (lvl + 1) (some rest) →
      (∀ k' c', (k', c') ∈ n.branch_nodes → c'.name = k') →
      (∀ k' c', (k', c') ∈ n.branch_nodes → k' ≠ k →
        TreeInv c' (lvl + 1) none) →
      TreeInv n lvl (some (k :: rest))

theorem begin_branch_keys_of_none {n : TimerNode} {name : String}
    (hl : n.branch_nodes.lookup name = none) (now : ℚ) :
    (n.begin_branch name now).branch_nodes.map Prod.fst =
      n.branch_nodes.map Prod.fst ++ [name] := by
  rw [TimerNode.begin_branch_eq, hl]
  simp only [TimerNode.setBranch_branch_nodes, TimerNode.branch_nodes_mk,
    replaceEntry_keys, List.map_append, List.map_cons, List.map_nil]

@[simp] theorem getAt_nil (n : TimerNode) : n.getAt [] = some n := rfl

theorem getAt_cons (n : TimerNode) (k : String) (rest : List String) :
    n.getAt (k :: rest) =
      match n.branch_nodes.lookup k with
      | none => none
      | some c => c.getAt rest := rfl

theorem getAt_append (p : List String) :
    ∀ (n : TimerNode) (q : List String),
    n.getAt (p ++ q) = (n.getAt p).bind (fun m => m.getAt q) := by
  induction p with
  | nil => intro n q; rfl
  | cons k rest ih =>
    intro n q
    rw [List.cons_append, getAt_cons, getAt_cons]
    cases n.branch_nodes.lookup k with
    | none => rfl
    | some c => exact ih c q

/-- Under the invariant, the active path always dereferences to a node,
that node carries exactly one open record, and its depth and `is_root`
flag agree with the path length. -/
theorem treeInv_getAt {rest : List String} :
    ∀ {n : TimerNode} {lvl : Nat}, TreeInv n lvl (some rest) →
    ∃ m, n.getAt rest = some m ∧ m.openRecInv ∧
      m.level = lvl + rest.length ∧ m.is_root = (m.level == 0) := by
  induction rest with
  | nil =>
    intro n lvl h
    cases h with
    | here h1 h2 h3 h4 h5 h6 =>
      exact ⟨n, rfl, h3, by simp [h1], by rw [h2, h1]⟩
  | cons k rest2 ih =>
    intro n lvl h
    cases h with
    | deeper h1 h2 h3 h4 hlk hc h7 h8 =>
      obtain ⟨m, hm, hopen, hlevel, hroot⟩ := ih hc
      refine ⟨m, ?_, hopen, by simp [hlevel]; omega, hroot⟩
      rw [getAt_cons, hlk]
      exact hm

/-- A closed node stays well formed after `begin_record` — it becomes the
new open (active) node. -/
theorem treeInv_begin_record_here {c : TimerNode} {lvl : Nat}
    (h : TreeInv c lvl none) (now : ℚ) :
    TreeInv (c.begin_record now) lvl (some []) := by
  cases h with
  | off h1 h2 h3 h4 h5 h6 =>
    refine TreeInv.here (by simpa using h1) (by simpa using h2) ?_
      (by simpa using h4) (by simpa using h5) (by simpa using h6)
    obtain ⟨hlen, hclosed⟩ := h3
    refine ⟨by simp [hlen], ?_, ?_⟩
    · intro r hr
      rw [TimerNode.begin_record_records, TimerNode.begin_record_ncall,
        ← hlen, List.take_left] at hr
      exact hclosed r hr
    · intro r hr
      rw [TimerNode.begin_record_records, TimerNode.begin_record_ncall,
        ← hlen, List.drop_left] at hr
      simp only [List.mem_singleton] at hr
      subst hr
      rfl

/-- `begin` applied along the active path preserves the invariant and
extends the path by the descended child. -/
theorem treeInv_begin_modify (name : String) (now : ℚ) {rest : List String} :
    ∀ {n : TimerNode} {lvl : Nat}, TreeInv n lvl (some rest) →
    ∃ n',
      TimerNode.modifyAtE (fun x => .ok (x.begin_branch name now)) n rest =
        .ok n' ∧
      TreeInv n' lvl (some (rest ++ [name])) ∧
      n'.name = n.name ∧
      (∀ X, n.getAt rest = some X →
        n'.getAt rest = some (X.begin_branch name now)) := by
  induction rest with
  | nil =>
    intro n lvl h
    refine ⟨n.begin_branch name now, rfl, ?_, by simp, ?_⟩
    · cases h with
      | here h1 h2 h3 h4 h5 h6 =>
        refine TreeInv.deeper (c := (n.childTemplate name).begin_record now)
          (by simpa using h1) (by simpa using h2) ?_ ?_
          (TimerNode.begin_branch_lookup_self n name now) ?_ ?_ ?_
        · simpa [TimerNode.openRecInv] using h3
        · cases hl : n.branch_nodes.lookup name with
          | some c =>
            rw [TimerNode.begin_branch_keys_of_mem
              (List.mem_map.mpr ⟨(name, c), lookup_to_mem hl, rfl⟩) now]
            exact h4
          | none =>
            rw [begin_branch_keys_of_none hl now]
            exact nodup_keys_append_single h4 (lookup_none_iff.mp hl)
        · -- the descended child is well formed and open
          unfold TimerNode.childTemplate
          cases hl : n.branch_nodes.lookup name with
          | some c =>
            have hcn : c.name = name := h5 name c (lookup_to_mem hl)
            have hci : TreeInv c (lvl + 1) none := h6 name c (lookup_to_mem hl)
            exact hcn ▸ treeInv_begin_record_here hci now
          | none =>
            refine treeInv_begin_record_here ?_ now
            refine TreeInv.off (by simp [h1]) (by simp [h1]) ?_ (by simp)
              (by simp) (by simp)
            exact ⟨rfl, by simp⟩
        · intro k' c' hmem
          rcases TimerNode.begin_branch_mem hmem with ⟨hk, hv⟩ | ⟨hmem', hk⟩
          · show c'.name = k'
            rw [show (k' : String) = name from hk,
              show (c' : TimerNode) = (n.childTemplate name).begin_record now
                from hv]
            simp only [TimerNode.begin_record_name]
            unfold TimerNode.childTemplate
            cases hl : n.branch_nodes.lookup name with
            | some c => exact h5 name c (lookup_to_mem hl)
            | none => simp
          · exact h5 k' c' hmem'
        · intro k' c' hmem hne
          rcases TimerNode.begin_branch_mem hmem with ⟨hk, hv⟩ | ⟨hmem', hk⟩
          · exact absurd hk hne
          · exact h6 k' c' hmem'
    · intro X hX
      simp only [getAt_nil, Option.some.injEq] at hX
      subst hX
      rfl
  | cons k rest2 ih =>
    intro n lvl h
    cases h with
    | deeper h1 h2 h3 h4 hlk hc h7 h8 =>
      rename_i c0
      obtain ⟨c', hc', hcinv, hcname, hcget⟩ := ih hc
      have hkmem : k ∈ n.branch_nodes.map Prod.fst :=
        List.mem_map.mpr ⟨_, lookup_to_mem hlk, rfl⟩
      refine ⟨n.setBranch k c', ?_, ?_, by simp, ?_⟩
      · simp only [TimerNode.modifyAtE, hlk, hc']
      · rw [List.cons_append]
        refine TreeInv.deeper (by simpa using h1) (by simpa using h2)
          (by simpa [TimerNode.openRecInv] using h3) ?_ ?_ hcinv ?_ ?_
        · rw [TimerNode.setBranch_branch_nodes, replaceEntry_keys]
          exact h4
        · rw [TimerNode.setBranch_branch_nodes]
          exact replaceEntry_lookup_self c' hkmem
        · intro k' c'' hmem
          rcases replaceEntry_mem (by simpa using hmem) with ⟨hk, hv⟩ | ⟨hmem', hk⟩
          · show c''.name = k'
            rw [show (k' : String) = k from hk,
              show (c'' : TimerNode) = c' from hv, hcname]
            exact h7 k c0 (lookup_to_mem hlk)
          · exact h7 k' c'' hmem'
        · intro k' c'' hmem hne
          rcases replaceEntry_mem (by simpa using hmem) with ⟨hk, hv⟩ | ⟨hmem', hk⟩
          · exact absurd hk hne
          · exact h8 k' c'' hmem' hne
      · intro X hX
        rw [getAt_cons, hlk] at hX
        rw [getAt_cons]
        simp only [TimerNode.setBranch_branch_nodes]
        rw [replaceEntry_lookup_self c' hkmem]
        exact hcget X hX

theorem end_record_ok {n : TimerNode} (now : ℚ)
    (hlt : n.ncall < n.records.length) :
    n.end_record now = .ok (.mk n.name
      (n.records.set n.ncall
        { n.records.get ⟨n.ncall, hlt⟩ with end_ := some now })
      n.level n.branch_nodes (n.ncall + 1) n.is_root n.stats false) := by
  rw [TimerNode.end_record, dif_pos hlt]

/-- Closing the open record of the active node leaves a closed, well
formed node. -/
theorem treeInv_end_record_here {n : TimerNode} {lvl : Nat}
    (h : TreeInv n lvl (some [])) (now : ℚ) :
    ∃ n', n.end_record now = .ok n' ∧ n'.name = n.name ∧
      TreeInv n' lvl none := by
  cases h with
  | here h1 h2 h3 h4 h5 h6 =>
    obtain ⟨hlen, hclosed, _⟩ := h3
    have hlt : n.ncall < n.records.length := by omega
    refine ⟨_, end_record_ok now hlt, rfl, ?_⟩
    have hset : n.records.set n.ncall
        { n.records.get ⟨n.ncall, hlt⟩ with end_ := some now } =
        n.records.take n.ncall ++
          [{ n.records.get ⟨n.ncall, hlt⟩ with end_ := some now }] := by
      rw [List.set_eq_take_append_cons_drop, if_pos hlt]
      have : n.records.drop (n.ncall + 1) = [] := by
        rw [← hlen, List.drop_length]
      rw [this]
    refine TreeInv.off (by simpa using h1) (by simpa using h2) ?_
      (by simpa using h4) (by simpa using h5) (by simpa using h6)
    constructor
    · simp only [TimerNode.records_mk, TimerNode.ncall_mk, List.length_set]
      omega
    · intro r hr
      simp only [TimerNode.records_mk] at hr
      rw [hset] at hr
      rcases List.mem_append.mp hr with hr | hr
      · exact hclosed r hr
      · simp only [List.mem_singleton] at hr
        subst hr
        simp

/-- `end` applied along the active path closes exactly the active node's
open record, keeps the tree well formed and pops the path. -/
theorem treeInv_end_modify (now : ℚ) {rest : List String} :
    ∀ {n : TimerNode} {lvl : Nat}, TreeInv n lvl (some rest) →
    ∃ n', TimerNode.modifyAtE (fun x => x.end_record now) n rest = .ok n' ∧
      n'.name = n.name ∧
      (rest = [] → TreeInv n' lvl none) ∧
      (rest ≠ [] → TreeInv n' lvl (some rest.dropLast)) ∧
      (∀ X, n.getAt rest = some X →
        ∃ X', X.end_record now = .ok X' ∧ n'.getAt rest = some X') := by
  induction rest with
  | nil =>
    intro n lvl h
    obtain ⟨n', hok, hname, hinv⟩ := treeInv_end_record_here h now
    refine ⟨n', hok, hname, fun _ => hinv, fun hne => absurd rfl hne, ?_⟩
    intro X hX
    simp only [getAt_nil, Option.some.injEq] at hX
    subst hX
    exact ⟨n', hok, rfl⟩
  | cons k rest2 ih =>
    intro n lvl h
    cases h with
    | deeper h1 h2 h3 h4 hlk hc h7 h8 =>
      rename_i c0
      obtain ⟨c', hc', hcname, hcnil, hccons, hcget⟩ := ih hc
      have hkmem : k ∈ n.branch_nodes.map Prod.fst :=
        List.mem_map.mpr ⟨_, lookup_to_mem hlk, rfl⟩
      have hc0name : c0.name = k := h7 k c0 (lookup_to_mem hlk)
      refine ⟨n.setBranch k c', ?_, by simp,
        fun hh => absurd hh (List.cons_ne_nil k rest2), ?_, ?_⟩
      · simp only [TimerNode.modifyAtE, hlk, hc']
      · intro _
        cases rest2 with
        | nil =>
          have hcinv : TreeInv c' (lvl + 1) none := hcnil rfl
          show TreeInv (n.setBranch k c') lvl (some [])
          refine TreeInv.here (by simpa using h1) (by simpa using h2)
            (by simpa [TimerNode.openRecInv] using h3) ?_ ?_ ?_
          · rw [TimerNode.setBranch_branch_nodes, replaceEntry_keys]
            exact h4
          · intro k' c'' hmem
            rcases replaceEntry_mem (by simpa using hmem) with
              ⟨hk, hv⟩ | ⟨hmem', hk⟩
            · show c''.name = k'
              rw [show (k' : String) = k from hk,
                show (c'' : TimerNode) = c' from hv, hcname]
              exact hc0name
            · exact h7 k' c'' hmem'
          · intro k' c'' hmem
            rcases replaceEntry_mem (by simpa using hmem) with
              ⟨hk, hv⟩ | ⟨hmem', hk⟩
            · rw [show (c'' : TimerNode) = c' from hv]
              exact hcinv
            · exact h8 k' c'' hmem' hk
        | cons a t =>
          have hcinv : TreeInv c' (lvl + 1) (some ((a :: t).dropLast)) :=
            hccons (List.cons_ne_nil a t)
          show TreeInv (n.setBranch k c') lvl (some (k :: (a :: t).dropLast))
          refine TreeInv.deeper (by simpa using h1) (by simpa using h2)
            (by simpa [TimerNode.openRecInv] using h3) ?_ ?_ hcinv ?_ ?_
          · rw [TimerNode.setBranch_branch_nodes, replaceEntry_keys]
            exact h4
          · rw [TimerNode.setBranch_branch_nodes]
            exact replaceEntry_lookup_self c' hkmem
          · intro k' c'' hmem
            rcases replaceEntry_mem (by simpa using hmem) with
              ⟨hk, hv⟩ | ⟨hmem', hk⟩
            · show c''.name = k'
              rw [show (k' : String) = k from hk,
                show (c'' : TimerNode) = c' from hv, hcname]
              exact hc0name
            · exact h7 k' c'' hmem'
          · intro k' c'' hmem hne
            rcases replaceEntry_mem (by simpa using hmem) with
              ⟨hk, hv⟩ | ⟨hmem', hk⟩
            · exact absurd hk hne
            · exact h8 k' c'' hmem' hne
      · intro X hX
        rw [getAt_cons, hlk] at hX
        obtain ⟨X', hX', hgX⟩ := hcget X hX
        refine ⟨X', hX', ?_⟩
        rw [getAt_cons]
        simp only [TimerNode.setBranch_branch_nodes]
        rw [replaceEntry_lookup_self c' hkmem]
        exact hgX

/-- The full per-thread invariant maintained by the begin/end protocol. -/
def StateInv (s : TimerThreadLocal) : Prop :=
  (s.root_nodes.map Prod.fst).Nodup ∧
  (∀ k n, (k, n) ∈ s.root_nodes → n.name = k) ∧
  match s.active_node with
  | none => ∀ k n, (k, n) ∈ s.root_nodes → TreeInv n 0 none
  | some [] => False
  | some (r :: rest) =>
      (∃ n, s.root_nodes.lookup r = some n ∧ TreeInv n 0 (some rest)) ∧
      ∀ k n, (k, n) ∈ s.root_nodes → k ≠ r → TreeInv n 0 none

theorem stateInv_init : StateInv TimerThreadLocal.init := by
  refine ⟨List.nodup_nil, ?_, ?_⟩
  · intro k n hmem
    simp [TimerThreadLocal.init] at hmem
  · intro k n hmem
    simp [TimerThreadLocal.init] at hmem

theorem stateInv_reset (s : TimerThreadLocal) : StateInv (ScopeTimer.reset s) := by
  refine ⟨List.nodup_nil, ?_, ?_⟩
  · intro k n hmem
    simp [ScopeTimer.reset, TimerThreadLocal.reset] at hmem
  · intro k n hmem
    simp [ScopeTimer.reset, TimerThreadLocal.reset] at hmem

/-- The root that `begin` descends into from idle: the existing root
registered under `name`, or a freshly constructed one. -/
def rootTemplate (roots : List (String × TimerNode)) (name : String) :
    TimerNode :=
  match roots.lookup name with
  | some tr => tr
  | none => TimerNode.new name 0

theorem stateInv_begin_idle {s : TimerThreadLocal} (h : StateInv s)
    (hidle : s.active_node = none) (name : String) (now : ℚ) :
    ∃ s', ScopeTimer.begin s name now = .ok s' ∧ StateInv s' ∧
      s'.active_node = some [name] ∧
      rootsGetAt s'.root_nodes [name] =
        some ((rootTemplate s.root_nodes name).begin_record now) ∧
      s'.time_property = s.time_property := by
  obtain ⟨hnd, hnames, hroots⟩ := h
  rw [hidle] at hroots
  cases hl : s.root_nodes.lookup name with
  | some tr =>
    have htrmem := lookup_to_mem hl
    have htrname : tr.name = name := hnames name tr htrmem
    have htrinv : TreeInv tr 0 none := hroots name tr htrmem
    have hnmem : name ∈ s.root_nodes.map Prod.fst :=
      List.mem_map.mpr ⟨(name, tr), htrmem, rfl⟩
    refine ⟨⟨some [name], replaceEntry s.root_nodes name (tr.begin_record now),
      s.time_property⟩, ?_, ?_, rfl, ?_, rfl⟩
    · rw [ScopeTimer.begin, hidle, hl]
    · refine ⟨by rw [replaceEntry_keys]; exact hnd, ?_, ?_⟩
      · intro k n hmem
        rcases replaceEntry_mem hmem with ⟨hk, hv⟩ | ⟨hmem', _⟩
        · show n.name = k
          rw [show (k : String) = name from hk,
            show (n : TimerNode) = tr.begin_record now from hv]
          simpa using htrname
        · exact hnames k n hmem'
      · show (∃ n, _ ∧ _) ∧ _
        refine ⟨⟨tr.begin_record now, replaceEntry_lookup_self _ hnmem,
          treeInv_begin_record_here htrinv now⟩, ?_⟩
        intro k n hmem hne
        rcases replaceEntry_mem hmem with ⟨hk, hv⟩ | ⟨hmem', _⟩
        · exact absurd hk hne
        · exact hroots k n hmem'
    · show rootsGetAt _ [name] = _
      rw [rootsGetAt, replaceEntry_lookup_self _ hnmem]
      rw [rootTemplate, hl]
      rfl
  | none =>
    have hnmem : name ∉ s.root_nodes.map Prod.fst := lookup_none_iff.mp hl
    refine ⟨⟨some [name],
      s.root_nodes ++ [(name, (TimerNode.new name 0).begin_record now)],
      s.time_property⟩, ?_, ?_, rfl, ?_, rfl⟩
    · rw [ScopeTimer.begin, hidle, hl]
    · refine ⟨?_, ?_, ?_⟩
      · rw [List.map_append]
        simpa using nodup_keys_append_single hnd hnmem
      · intro k n hmem
        rcases List.mem_append.mp hmem with hmem' | hmem'
        · exact hnames k n hmem'
        · simp only [List.mem_singleton, Prod.mk.injEq] at hmem'
          obtain ⟨rfl, rfl⟩ := hmem'
          simp
      · show (∃ n, _ ∧ _) ∧ _
        constructor
        · refine ⟨(TimerNode.new name 0).begin_record now, ?_, ?_⟩
          · rw [lookup_append_none hl]
            simp [List.lookup]
          · refine treeInv_begin_record_here ?_ now
            exact TreeInv.off rfl rfl ⟨rfl, by simp⟩ (by simp) (by simp)
              (by simp)
        · intro k n hmem hne
          rcases List.mem_append.mp hmem with hmem' | hmem'
          · exact hroots k n hmem'
          · simp only [List.mem_singleton, Prod.mk.injEq] at hmem'
            exact absurd hmem'.1 hne
    · show rootsGetAt _ [name] = _
      rw [rootsGetAt, lookup_append_none hl]
      rw [rootTemplate, hl]
      simp [List.lookup]

theorem stateInv_begin_active {s : TimerThreadLocal} {p : List String}
    (h : StateInv s) (hact : s.active_node = some p) (name : String)
    (now : ℚ) :
    ∃ s', ScopeTimer.begin s name now = .ok s' ∧ StateInv s' ∧
      s'.active_node = some (p ++ [name]) ∧
      (∀ X, rootsGetAt s.root_nodes p = some X →
        rootsGetAt s'.root_nodes p = some (X.begin_branch name now)) ∧
      s'.time_property = s.time_property := by
  obtain ⟨hnd, hnames, hroots⟩ := h
  rw [hact] at hroots
  cases p with
  | nil => exact absurd hroots id
  | cons r rest =>
    obtain ⟨⟨n, hln, hninv⟩, hothers⟩ := hroots
    obtain ⟨n', hmod, hinv', hname', hget'⟩ :=
      treeInv_begin_modify name now hninv
    have hrmem : r ∈ s.root_nodes.map Prod.fst :=
      List.mem_map.mpr ⟨(r, n), lookup_to_mem hln, rfl⟩
    have hnr : n.name = r := hnames r n (lookup_to_mem hln)
    refine ⟨⟨some ((r :: rest) ++ [name]), replaceEntry s.root_nodes r n',
      s.time_property⟩, ?_, ?_, rfl, ?_, rfl⟩
    · simp only [ScopeTimer.begin, hact, rootsModifyAtE, hln, hmod]
    · refine ⟨by rw [replaceEntry_keys]; exact hnd, ?_, ?_⟩
      · intro k m hmem
        rcases replaceEntry_mem hmem with ⟨hk, hv⟩ | ⟨hmem', _⟩
        · show m.name = k
          rw [show (k : String) = r from hk,
            show (m : TimerNode) = n' from hv, hname']
          exact hnr
        · exact hnames k m hmem'
      · show (∃ m, _ ∧ _) ∧ _
        refine ⟨⟨n', replaceEntry_lookup_self _ hrmem, hinv'⟩, ?_⟩
        intro k m hmem hne
        rcases replaceEntry_mem hmem with ⟨hk, hv⟩ | ⟨hmem', _⟩
        · exact absurd hk hne
        · exact hothers k m hmem' hne
    · intro X hX
      rw [rootsGetAt, hln] at hX
      show rootsGetAt _ (r :: rest) = _
      rw [rootsGetAt, replaceEntry_lookup_self _ hrmem]
      exact hget' X hX

theorem stateInv_end {s : TimerThreadLocal} {p : List String} {m : TimerNode}
    (h : StateInv s) (hact : s.active_node = some p)
    (hget : rootsGetAt s.root_nodes p = some m) {name : String}
    (hname : m.name = name) (now : ℚ) :
    ∃ s' m', ScopeTimer.end_ s name now = .ok s' ∧ StateInv s' ∧
      m.end_record now = .ok m' ∧ rootsGetAt s'.root_nodes p = some m' ∧
      s'.active_node = (if p.length = 1 then none else some p.dropLast) ∧
      s'.time_property = s.time_property := by
  obtain ⟨hnd, hnames, hroots⟩ := h
  rw [hact] at hroots
  cases p with
  | nil => exact absurd hroots id
  | cons r rest =>
    obtain ⟨⟨n, hln, hninv⟩, hothers⟩ := hroots
    obtain ⟨n', hmod, hname', hnil', hcons', hget'⟩ :=
      treeInv_end_modify now hninv
    have hrmem : r ∈ s.root_nodes.map Prod.fst :=
      List.mem_map.mpr ⟨(r, n), lookup_to_mem hln, rfl⟩
    have hnr : n.name = r := hnames r n (lookup_to_mem hln)
    simp only [rootsGetAt, hln] at hget
    obtain ⟨m', hm', hg'⟩ := hget' m hget
    obtain ⟨m2, hm2, hopen2, hlvl2, hroot2⟩ := treeInv_getAt hninv
    rw [hget] at hm2
    injection hm2 with hm2
    subst hm2
    have hisroot : m.is_root = (rest.length == 0) := by
      rw [hroot2, hlvl2]
      simp
    refine ⟨⟨if m.is_root then none else some ((r :: rest).dropLast),
      replaceEntry s.root_nodes r n', s.time_property⟩, m', ?_, ?_, hm', ?_,
      ?_, rfl⟩
    · simp only [ScopeTimer.end_, hact, rootsGetAt, hln, hget, hname, ne_eq,
        not_true_eq_false, if_false, ite_false, rootsModifyAtE, hmod]
    · cases rest with
      | nil =>
        have hinv' : TreeInv n' 0 none := hnil' rfl
        rw [hisroot]
        refine ⟨by rw [replaceEntry_keys]; exact hnd, ?_, ?_⟩
        · intro k w hmem
          rcases replaceEntry_mem hmem with ⟨hk, hv⟩ | ⟨hmem', _⟩
          · show w.name = k
            rw [show (k : String) = r from hk,
              show (w : TimerNode) = n' from hv, hname']
            exact hnr
          · exact hnames k w hmem'
        · show ∀ k w, (k, w) ∈ _ → TreeInv w 0 none
          intro k w hmem
          rcases replaceEntry_mem hmem with ⟨hk, hv⟩ | ⟨hmem', hk⟩
          · rw [show (w : TimerNode) = n' from hv]
            exact hinv'
          · exact hothers k w hmem' hk
      | cons a t =>
        have hinv' : TreeInv n' 0 (some ((a :: t).dropLast)) :=
          hcons' (List.cons_ne_nil a t)
        rw [hisroot]
        simp only [List.length_cons, Nat.succ_ne_zero, beq_iff_eq,
          if_false]
        refine ⟨by rw [replaceEntry_keys]; exact hnd, ?_, ?_⟩
        · intro k w hmem
          rcases replaceEntry_mem hmem with ⟨hk, hv⟩ | ⟨hmem', _⟩
          · show w.name = k
            rw [show (k : String) = r from hk,
              show (w : TimerNode) = n' from hv, hname']
            exact hnr
          · exact hnames k w hmem'
        · show (∃ w, _ ∧ _) ∧ _
          refine ⟨⟨n', replaceEntry_lookup_self _ hrmem, hinv'⟩, ?_⟩
          intro k w hmem hne
          rcases replaceEntry_mem hmem with ⟨hk, hv⟩ | ⟨hmem', _⟩
          · exact absurd hk hne
          · exact hothers k w hmem' hne
    · show rootsGetAt _ (r :: rest) = _
      rw [rootsGetAt, replaceEntry_lookup_self _ hrmem]
      exact hg'
    · show (if m.is_root then none else some ((r :: rest).dropLast)) = _
      rw [hisroot]
      cases rest with
      | nil => simp
      | cons a t => simp

theorem stateInv_begin_of_ok {s : TimerThreadLocal} {name : String} {now : ℚ}
    {s' : TimerThreadLocal} (h : StateInv s)
    (hb : ScopeTimer.begin s name now = .ok s') : StateInv s' := by
  cases hact : s.active_node with
  | none =>
    obtain ⟨s'', heq, hinv, _, _, _⟩ := stateInv_begin_idle h hact name now
    rw [heq] at hb
    injection hb with hb
    subst hb
    exact hinv
  | some p =>
    obtain ⟨s'', heq, hinv, _, _, _⟩ := stateInv_begin_active h hact name now
    rw [heq] at hb
    injection hb with hb
    subst hb
    exact hinv

theorem stateInv_end_of_ok {s : TimerThreadLocal} {name : String} {now : ℚ}
    {s' : TimerThreadLocal} (h : StateInv s)
    (hb : ScopeTimer.end_ s name now = .ok s') : StateInv s' := by
  cases hact : s.active_node with
  | none =>
    simp only [ScopeTimer.end_, hact] at hb
    cases hb
  | some p =>
    cases hget : rootsGetAt s.root_nodes p with
    | none =>
      simp only [ScopeTimer.end_, hact, hget] at hb
      cases hb
    | some m =>
      by_cases hname : m.name = name
      · obtain ⟨s'', m', heq, hinv, _, _, _, _⟩ :=
          stateInv_end h hact hget hname now
        rw [heq] at hb
        injection hb with hb
        subst hb
        exact hinv
      · simp only [ScopeTimer.end_, hact, hget] at hb
        rw [if_pos hname] at hb
        cases hb

theorem stateInv_step {s : TimerThreadLocal} {e : Event}
    {s' : TimerThreadLocal} (h : StateInv s)
    (hs : ScopeTimer.step s e = .ok s') : StateInv s' := by
  cases e with
  | begin name now => exact stateInv_begin_of_ok h hs
  | end_ name now => exact stateInv_end_of_ok h hs
  | reset =>
    simp only [ScopeTimer.step] at hs
    injection hs with hs
    subst hs
    exact stateInv_reset s

/-- Every state the begin/end protocol can reach satisfies the full
invariant. -/
theorem reachable_stateInv {s : TimerThreadLocal} (h : Reachable s) :
    StateInv s := by
  induction h with
  | init => exact stateInv_init
  | step hr hstep ih => exact stateInv_step ih hstep

/-! ## Per-node record bookkeeping derived from the invariant -/

/-- The bookkeeping facts every node of a protocol state satisfies:
`ncall` counts exactly the closed records, the records below index
`ncall` are closed, the ones from `ncall` on are open, and there is at
most one of the latter. -/
def TimerNode.recordBookkeeping (m : TimerNode) : Prop :=
  m.ncall = (m.records.filter (fun r => r.end_.isSome)).length ∧
  (∀ r ∈ m.records.take m.ncall, r.end_ ≠ none) ∧
  (∀ r ∈ m.records.drop m.ncall, r.end_ = none) ∧
  m.records.length ≤ m.ncall + 1

theorem closedRecInv_bookkeeping {m : TimerNode} (h : m.closedRecInv) :
    m.recordBookkeeping := by
  obtain ⟨hlen, hclosed⟩ := h
  refine ⟨?_, ?_, ?_, by omega⟩
  · rw [List.filter_eq_self.mpr ?_]
    · omega
    · intro r hr
      simpa [Option.isSome_iff_ne_none] using hclosed r hr
  · intro r hr
    exact hclosed r (List.mem_of_mem_take hr)
  · intro r hr
    rw [← hlen, List.drop_length] at hr
    simp at hr

theorem openRecInv_bookkeeping {m : TimerNode} (h : m.openRecInv) :
    m.recordBookkeeping := by
  obtain ⟨hlen, hclosed, hopen⟩ := h
  refine ⟨?_, hclosed, hopen, by omega⟩
  have h1 : (m.records.take m.ncall).filter (fun r => r.end_.isSome) =
      m.records.take m.ncall :=
    List.filter_eq_self.mpr (fun r hr => by
      simpa [Option.isSome_iff_ne_none] using hclosed r hr)
  have h2 : (m.records.drop m.ncall).filter (fun r => r.end_.isSome) = [] :=
    List.filter_eq_nil_iff.mpr (fun r hr => by simp [hopen r hr])
  have key : (m.records.filter (fun r => r.end_.isSome)).length =
      ((m.records.take m.ncall ++ m.records.drop m.ncall).filter
        (fun r => r.end_.isSome)).length := by
    rw [List.take_append_drop]
  rw [key, List.filter_append, h1, h2, List.length_append, List.length_nil,
    List.length_take, Nat.min_eq_left (by omega)]
  omega

theorem collectNodes_def (n : TimerNode) :
    n.collectNodes = n :: TimerNode.collectChildNodes n.branch_nodes := by
  cases n
  rfl

theorem mem_collectChildNodes {l : List (String × TimerNode)}
    {m : TimerNode} :
    m ∈ TimerNode.collectChildNodes l ↔
      ∃ e ∈ l, m ∈ TimerNode.collectNodes e.2 := by
  induction l with
  | nil => simp [TimerNode.collectChildNodes]
  | cons e rest ih =>
    obtain ⟨k, c⟩ := e
    rw [TimerNode.collectChildNodes, List.mem_append, ih]
    constructor
    · rintro (hm | ⟨e', he', hm⟩)
      · exact ⟨(k, c), List.mem_cons_self _ _, hm⟩
      · exact ⟨e', List.mem_cons_of_mem _ he', hm⟩
    · rintro ⟨e', he', hm⟩
      rcases List.mem_cons.mp he' with rfl | he'
      · exact Or.inl hm
      · exact Or.inr ⟨e', he', hm⟩

/-- Every node of a well formed subtree satisfies the bookkeeping
facts. -/
theorem treeInv_bookkeeping {n : TimerNode} {lvl : Nat}
    {act : Option (List String)} (h : TreeInv n lvl act) :
    ∀ m ∈ n.collectNodes, m.recordBookkeeping := by
  induction h with
  | off h1 h2 h3 h4 h5 h6 ih =>
    intro m hm
    rw [collectNodes_def, List.mem_cons] at hm
    rcases hm with rfl | hm
    · exact closedRecInv_bookkeeping h3
    · obtain ⟨⟨k, c⟩, hec, hmc⟩ := mem_collectChildNodes.mp hm
      exact ih k c hec m hmc
  | here h1 h2 h3 h4 h5 h6 ih =>
    intro m hm
    rw [collectNodes_def, List.mem_cons] at hm
    rcases hm with rfl | hm
    · exact openRecInv_bookkeeping h3
    · obtain ⟨⟨k, c⟩, hec, hmc⟩ := mem_collectChildNodes.mp hm
      exact ih k c hec m hmc
  | deeper h1 h2 h3 h4 hlk hc h7 h8 ihc ih8 =>
    rename_i n0 lvl0 k0 rest0 c0
    intro m hm
    rw [collectNodes_def, List.mem_cons] at hm
    rcases hm with rfl | hm
    · exact openRecInv_bookkeeping h3
    · obtain ⟨⟨k, c⟩, hec, hmc⟩ := mem_collectChildNodes.mp hm
      by_cases hk : k = k0
      · subst hk
        have : c = c0 := by
          have := mem_to_lookup h4 hec
          rw [hlk] at this
          injection this with hv
          exact hv.symm
        subst this
        exact ihc m hmc
      · exact ih8 k c hec hk m hmc

/-- All nodes owned by a thread state, across all of its root trees. -/
def TimerThreadLocal.allNodes (s : TimerThreadLocal) : List TimerNode :=
  TimerNode.collectChildNodes s.root_nodes

theorem stateInv_bookkeeping {s : TimerThreadLocal} (h : StateInv s) :
    ∀ m ∈ s.allNodes, m.recordBookkeeping := by
  obtain ⟨hnd, hnames, hroots⟩ := h
  intro m hm
  obtain ⟨⟨k, c⟩, hec, hmc⟩ := mem_collectChildNodes.mp hm
  cases hact : s.active_node with
  | none =>
    rw [hact] at hroots
    exact treeInv_bookkeeping (hroots k c hec) m hmc
  | some p =>
    rw [hact] at hroots
    cases p with
    | nil => exact absurd hroots id
    | cons r rest =>
      obtain ⟨⟨n, hln, hninv⟩, hothers⟩ := hroots
      by_cases hk : k = r
      · subst hk
        have : c = n := by
          have := mem_to_lookup hnd hec
          rw [hln] at this
          injection this with hv
          exact hv.symm
        subst this
        exact treeInv_bookkeeping hninv m hmc
      · exact treeInv_bookkeeping (hothers k c hec hk) m hmc

/-- Along the active path the dereferenced node's name is the last path
component (the names of children match their keys). -/
theorem treeInv_getAt_name {rest : List String} :
    ∀ {n : TimerNode} {lvl : Nat} {m : TimerNode},
    TreeInv n lvl (some rest) → n.getAt rest = some m →
    m.name = rest.getLastD n.name := by
  induction rest with
  | nil =>
    intro n lvl m _ hm
    simp only [getAt_nil, Option.some.injEq] at hm
    subst hm
    rfl
  | cons k rest2 ih =>
    intro n lvl m h hm
    cases h with
    | deeper h1 h2 h3 h4 hlk hc h7 h8 =>
      rename_i c0
      rw [getAt_cons, hlk] at hm
      have := ih hc hm
      rw [List.getLastD_cons, this]
      have hck : c0.name = k := h7 k c0 (lookup_to_mem hlk)
      rw [hck]

/-- Everything the invariant yields about the active node. -/
theorem stateInv_active_facts {s : TimerThreadLocal} {p : List String}
    (h : StateInv s) (hact : s.active_node = some p) :
    ∃ m, rootsGetAt s.root_nodes p = some m ∧ m.openRecInv ∧
      m.level + 1 = p.length ∧ m.is_root = (m.level == 0) ∧
      m.name = p.getLastD "" := by
  obtain ⟨hnd, hnames, hroots⟩ := h
  rw [hact] at hroots
  cases p with
  | nil => exact absurd hroots id
  | cons r rest =>
    obtain ⟨⟨n, hln, hninv⟩, _⟩ := hroots
    obtain ⟨m, hm, hopen, hlvl, hroot⟩ := treeInv_getAt hninv
    have hname := treeInv_getAt_name hninv hm
    have hnr : n.name = r := hnames r n (lookup_to_mem hln)
    refine ⟨m, ?_, hopen, by simp [hlvl], hroot, ?_⟩
    · rw [rootsGetAt, hln]
      exact hm
    · rw [hname, List.getLastD_cons, hnr]

/-- At most one record of a bookkept node is open. -/
theorem bookkeeping_open_count {m : TimerNode} (h : m.recordBookkeeping) :
    (m.records.filter (fun r => r.end_.isNone)).length ≤ 1 := by
  obtain ⟨_, hclosed, hopen, hlen⟩ := h
  have key : (m.records.filter (fun r => r.end_.isNone)).length =
      ((m.records.take m.ncall ++ m.records.drop m.ncall).filter
        (fun r => r.end_.isNone)).length := by
    rw [List.take_append_drop]
  rw [key, List.filter_append, List.length_append,
    List.filter_eq_nil_iff.mpr (fun r hr => by
      simpa [Option.isNone_iff_eq_none] using hclosed r hr)]
  have h2 := List.length_filter_le (fun r => r.end_.isNone)
    (m.records.drop m.ncall)
  have h3 : (m.records.drop m.ncall).length ≤ 1 := by
    rw [List.length_drop]
    omega
  simp only [List.length_nil]
  omega

theorem end_idle {s : TimerThreadLocal} (hact : s.active_node = none)
    (name : String) (now : ℚ) :
    ScopeTimer.end_ s name now = .error .endWithoutBegin := by
  simp only [ScopeTimer.end_, hact]

theorem end_mismatch {s : TimerThreadLocal} {p : List String} {m : TimerNode}
    {name : String} (hact : s.active_node = some p)
    (hget : rootsGetAt s.root_nodes p = some m) (hne : m.name ≠ name)
    (now : ℚ) : ScopeTimer.end_ s name now = .error .mismatch := by
  simp only [ScopeTimer.end_, hact, hget, if_pos hne]

/-- After any successful `begin(name)`, the invariant still holds and the
active node is a node named `name`. -/
theorem active_name_after_begin {s s1 : TimerThreadLocal} {name : String}
    {now : ℚ} (h : StateInv s)
    (hb : ScopeTimer.begin s name now = .ok s1) :
    StateInv s1 ∧ ∃ p1 m1, s1.active_node = some p1 ∧
      rootsGetAt s1.root_nodes p1 = some m1 ∧ m1.name = name := by
  have hinv1 : StateInv s1 := stateInv_begin_of_ok h hb
  refine ⟨hinv1, ?_⟩
  have hpath : ∃ p0, s1.active_node = some (p0 ++ [name]) := by
    cases hact : s.active_node with
    | none =>
      obtain ⟨s'', heq, _, hac, _, _⟩ := stateInv_begin_idle h hact name now
      rw [heq] at hb
      injection hb with hb
      subst hb
      exact ⟨[], hac⟩
    | some p =>
      obtain ⟨s'', heq, _, hac, _, _⟩ := stateInv_begin_active h hact name now
      rw [heq] at hb
      injection hb with hb
      subst hb
      exact ⟨p, hac⟩
  obtain ⟨p0, hac⟩ := hpath
  obtain ⟨m, hm, _, _, _, hname⟩ := stateInv_active_facts hinv1 hac
  refine ⟨p0 ++ [name], m, hac, hm, ?_⟩
  rw [hname, List.getLastD_concat]

/-- C1: on every protocol state, `end(name)` raises a Scope-Mismatch
error exactly when the thread is idle or the active node's name differs
from `name`; on success it closes the active node's open record and
restores the parent (idle for a root) as the active node.  In particular
`begin("A")` immediately followed by `end("B")` raises Scope-Mismatch,
and `end` on an idle state raises Scope-Mismatch. -/
theorem claim_C1 {s : TimerThreadLocal} (hr : Reachable s) (name : String)
    (now : ℚ) :
    ((∃ e, ScopeTimer.end_ s name now = .error e ∧ e.isScopeMismatch = true) ↔
      (s.active_node = none ∨
        ∃ p m, s.active_node = some p ∧
          rootsGetAt s.root_nodes p = some m ∧ m.name ≠ name)) ∧
    (s.active_node = none →
      ScopeTimer.end_ s name now = .error .endWithoutBegin) ∧
    (∀ p m, s.active_node = some p → rootsGetAt s.root_nodes p = some m →
      m.name = name →
      ∃ s' m', ScopeTimer.end_ s name now = .ok s' ∧
        m.end_record now = .ok m' ∧
        m'.records = m.records.set m.ncall
          { m.records.getD m.ncall default with end_ := some now } ∧
        m'.ncall = m.ncall + 1 ∧
        m'.records.length = m'.ncall ∧
        rootsGetAt s'.root_nodes p = some m' ∧
        s'.active_node = (if p.length = 1 then none else some p.dropLast)) ∧
    (∀ s1, ScopeTimer.begin s "A" now = .ok s1 →
      ScopeTimer.end_ s1 "B" now = .error .mismatch) := by
  have hinv : StateInv s := reachable_stateInv hr
  have success : ∀ p m, s.active_node = some p →
      rootsGetAt s.root_nodes p = some m → m.name = name →
      ∃ s' m', ScopeTimer.end_ s name now = .ok s' ∧
        m.end_record now = .ok m' ∧
        m'.records = m.records.set m.ncall
          { m.records.getD m.ncall default with end_ := some now } ∧
        m'.ncall = m.ncall + 1 ∧
        m'.records.length = m'.ncall ∧
        rootsGetAt s'.root_nodes p = some m' ∧
        s'.active_node = (if p.length = 1 then none else some p.dropLast) := by
    intro p m hact hget hname
    obtain ⟨s', m', heq, hinv', hm', hg', hac', _⟩ :=
      stateInv_end hinv hact hget hname now
    obtain ⟨m0, hget0, hopen0, _, _, _⟩ := stateInv_active_facts hinv hact
    rw [hget] at hget0
    injection hget0 with hget0
    subst hget0
    have hlt : m.ncall < m.records.length := by
      obtain ⟨hlen, _, _⟩ := hopen0
      omega
    rw [end_record_ok now hlt] at hm'
    injection hm' with hm'
    refine ⟨s', m', heq, ?_, ?_, ?_, ?_, hg', hac'⟩
    · rw [end_record_ok now hlt, hm']
    · rw [← hm']
      simp only [TimerNode.records_mk]
      rw [List.getD_eq_getElem m.records default hlt]
      rfl
    · rw [← hm']
      simp
    · rw [← hm']
      obtain ⟨hlen, _, _⟩ := hopen0
      simp only [TimerNode.records_mk, TimerNode.ncall_mk, List.length_set]
      omega
  refine ⟨?_, fun hact => end_idle hact name now, success, ?_⟩
  · constructor
    · rintro ⟨e, he, hkind⟩
      cases hact : s.active_node with
      | none => exact Or.inl rfl
      | some p =>
        obtain ⟨m, hget, _, _, _, _⟩ := stateInv_active_facts hinv hact
        by_cases hname : m.name = name
        · obtain ⟨s', m', heq, _⟩ := success p m hact hget hname
          rw [heq] at he
          cases he
        · exact Or.inr ⟨p, m, rfl, hget, hname⟩
    · rintro (hact | ⟨p, m, hact, hget, hne⟩)
      · exact ⟨.endWithoutBegin, end_idle hact name now, rfl⟩
      · exact ⟨.mismatch, end_mismatch hact hget hne now, rfl⟩
  · intro s1 hb
    obtain ⟨hinv1, p1, m1, hac1, hg1, hn1⟩ := active_name_after_begin hinv hb
    exact end_mismatch hac1 hg1 (by rw [hn1]; decide) now

theorem claim_C1_witness :
    ScopeTimer.end_ ⟨some ["A"],
      [("A", TimerNode.mk "A" [⟨0, none⟩] 0 [] 0 true none false)], none⟩
      "B" 0 = .error .mismatch ∧
    ScopeTimer.end_ TimerThreadLocal.init "x" 0 = .error .endWithoutBegin := by
  refine ⟨(claim_C1 Reachable.init "x" 0).2.2.2 _ ?_,
    (claim_C1 Reachable.init "x" 0).2.1 rfl⟩
  rfl

/-- C5: in every reachable state, every node's `ncall` counts exactly its
closed records, the records below index `ncall` are exactly the closed
ones, at most one record is open (so `ncall = records.length` exactly
when none is), and `has_open_record` decides `ncall < records.length`. -/
theorem claim_C5 {s : TimerThreadLocal} (hr : Reachable s) :
    ∀ m ∈ s.allNodes,
      m.ncall = (m.records.filter (fun r => r.end_.isSome)).length ∧
      m.records.take m.ncall = m.records.filter (fun r => r.end_.isSome) ∧
      (m.records.filter (fun r => r.end_.isNone)).length ≤ 1 ∧
      (m.ncall = m.records.length ↔
        (m.records.filter (fun r => r.end_.isNone)).length = 0) ∧
      (m.has_open_record = true ↔ m.ncall < m.records.length) := by
  intro m hm
  have hbk := stateInv_bookkeeping (reachable_stateInv hr) m hm
  obtain ⟨hcount, hclosed, hopen, hlen⟩ := hbk
  have htakef : (m.records.take m.ncall).filter (fun r => r.end_.isSome) =
      m.records.take m.ncall :=
    List.filter_eq_self.mpr (fun r hr => by
      simpa [Option.isSome_iff_ne_none] using hclosed r hr)
  have hdropf : (m.records.drop m.ncall).filter (fun r => r.end_.isSome) =
      [] :=
    List.filter_eq_nil_iff.mpr (fun r hr => by simp [hopen r hr])
  have htake : m.records.take m.ncall =
      m.records.filter (fun r => r.end_.isSome) := by
    have key : m.records.filter (fun r => r.end_.isSome) =
        (m.records.take m.ncall ++ m.records.drop m.ncall).filter
          (fun r => r.end_.isSome) := by
      rw [List.take_append_drop]
    rw [key, List.filter_append, htakef, hdropf, List.append_nil]
  have hdropn : (m.records.drop m.ncall).filter (fun r => r.end_.isNone) =
      m.records.drop m.ncall :=
    List.filter_eq_self.mpr (fun r hr => by simp [hopen r hr])
  have htaken : (m.records.take m.ncall).filter (fun r => r.end_.isNone) =
      [] :=
    List.filter_eq_nil_iff.mpr (fun r hr => by
      simpa [Option.isNone_iff_eq_none] using hclosed r hr)
  have hnonelen : (m.records.filter (fun r => r.end_.isNone)).length =
      m.records.length - m.ncall := by
    have key : m.records.filter (fun r => r.end_.isNone) =
        (m.records.take m.ncall ++ m.records.drop m.ncall).filter
          (fun r => r.end_.isNone) := by
      rw [List.take_append_drop]
    rw [key, List.filter_append, htaken, hdropn, List.nil_append,
      List.length_drop]
  have hle : m.ncall ≤ m.records.length := by
    rw [hcount]
    exact List.length_filter_le _ _
  refine ⟨hcount, htake, bookkeeping_open_count ⟨hcount, hclosed, hopen, hlen⟩,
    ?_, ?_⟩
  · rw [hnonelen]
    omega
  · simp only [TimerNode.has_open_record, decide_eq_true_eq]

theorem claim_C5_witness :
    (TimerNode.mk "a" [⟨0, none⟩] 0 [] 0 true none false).ncall =
      ((TimerNode.mk "a" [⟨0, none⟩] 0 [] 0 true none false).records.filter
        (fun r => r.end_.isSome)).length ∧
    (TimerNode.mk "a" [⟨0, none⟩] 0 [] 0 true none false).records.take
        (TimerNode.mk "a" [⟨0, none⟩] 0 [] 0 true none false).ncall =
      (TimerNode.mk "a" [⟨0, none⟩] 0 [] 0 true none false).records.filter
        (fun r => r.end_.isSome) ∧
    ((TimerNode.mk "a" [⟨0, none⟩] 0 [] 0 true none false).records.filter
      (fun r => r.end_.isNone)).length ≤ 1 ∧
    ((TimerNode.mk "a" [⟨0, none⟩] 0 [] 0 true none false).ncall =
        (TimerNode.mk "a" [⟨0, none⟩] 0 [] 0 true none false).records.length ↔
      ((TimerNode.mk "a" [⟨0, none⟩] 0 [] 0 true none false).records.filter
        (fun r => r.end_.isNone)).length = 0) ∧
    ((TimerNode.mk "a" [⟨0, none⟩] 0 [] 0 true none false).has_open_record =
        true ↔
      (TimerNode.mk "a" [⟨0, none⟩] 0 [] 0 true none false).ncall <
        (TimerNode.mk "a" [⟨0, none⟩] 0 [] 0 true none false).records.length) := by
  refine claim_C5 (Reachable.step Reachable.init
    (show ScopeTimer.step TimerThreadLocal.init (.begin "a" 0) =
      .ok ⟨some ["a"],
        [("a", TimerNode.mk "a" [⟨0, none⟩] 0 [] 0 true none false)],
        none⟩ from rfl)) _ ?_
  show TimerNode.mk "a" [⟨0, none⟩] 0 [] 0 true none false ∈
    TimerNode.collectChildNodes
      [("a", TimerNode.mk "a" [⟨0, none⟩] 0 [] 0 true none false)]
  rw [TimerNode.collectChildNodes, TimerNode.collectChildNodes,
    collectNodes_def]
  exact List.mem_append.mpr (Or.inl (List.mem_cons_self _ _))

theorem rootsGetAt_append {roots : List (String × TimerNode)} {r : String}
    {rest q : List String} :
    rootsGetAt roots ((r :: rest) ++ q) =
      (rootsGetAt roots (r :: rest)).bind (fun m => m.getAt q) := by
  simp only [List.cons_append, rootsGetAt]
  cases roots.lookup r with
  | none => rfl
  | some n => exact getAt_append rest n q

/-- C10: from any protocol state whose active node is `X`, `begin(name)`
— also when `name` is `X`'s own name — descends to or creates a child of
`X` named `name` one level deeper and opens a record on that child,
leaving `X`'s own records untouched; the new active node is distinct from
`X`, and no node of the new state holds two open records. -/
theorem claim_C10 {s : TimerThreadLocal} (hr : Reachable s)
    {p : List String} {X : TimerNode} (hact : s.active_node = some p)
    (hX : rootsGetAt s.root_nodes p = some X) (name : String) (now : ℚ) :
    ∃ s' C, ScopeTimer.begin s name now = .ok s' ∧
      s'.active_node = some (p ++ [name]) ∧
      p ++ [name] ≠ p ∧
      rootsGetAt s'.root_nodes p = some (X.begin_branch name now) ∧
      (X.begin_branch name now).records = X.records ∧
      (X.begin_branch name now).ncall = X.ncall ∧
      rootsGetAt s'.root_nodes (p ++ [name]) = some C ∧
      C = (X.childTemplate name).begin_record now ∧
      C.name = name ∧
      C.level = X.level + 1 ∧
      C.records = (X.childTemplate name).records ++ [{ begin := now }] ∧
      C.has_open_record = true ∧
      C ≠ X ∧
      (∀ m ∈ s'.allNodes,
        (m.records.filter (fun r => r.end_.isNone)).length ≤ 1) := by
  have hinv : StateInv s := reachable_stateInv hr
  obtain ⟨s', heq, hinv', hac', hpres, _⟩ :=
    stateInv_begin_active hinv hact name now
  have hXgetAt := hpres X hX
  obtain ⟨X0, hX0, _, hXlvl, _, _⟩ := stateInv_active_facts hinv hact
  rw [hX] at hX0
  injection hX0 with hX0
  subst hX0
  have hpshape : ∃ r rest, p = r :: rest := by
    obtain ⟨_, _, hroots⟩ := hinv
    rw [hact] at hroots
    cases p with
    | nil => exact absurd hroots id
    | cons r rest => exact ⟨r, rest, rfl⟩
  obtain ⟨r, rest, rfl⟩ := hpshape
  have hCget : rootsGetAt s'.root_nodes ((r :: rest) ++ [name]) =
      some ((X.childTemplate name).begin_record now) := by
    rw [rootsGetAt_append, hXgetAt]
    show ((X.begin_branch name now).getAt [name]) = _
    rw [getAt_cons, TimerNode.begin_branch_lookup_self]
    rfl
  obtain ⟨C0, hC0, hCopen, hClvl, _, hCname⟩ :=
    stateInv_active_facts hinv' hac'
  rw [hCget] at hC0
  injection hC0 with hC0
  refine ⟨s', (X.childTemplate name).begin_record now, heq, hac', ?_,
    hXgetAt, by simp, by simp, hCget, rfl, ?_, ?_, ?_, ?_, ?_, ?_⟩
  · intro hcontra
    have := congrArg List.length hcontra
    simp at this
  · rw [hC0, hCname, List.getLastD_concat]
  · have h1 := hClvl
    rw [← hC0] at h1
    simp only [List.length_append, List.length_cons, List.length_nil]
      at h1 hXlvl
    omega
  · rfl
  · rw [← hC0] at hCopen
    obtain ⟨hl, _, _⟩ := hCopen
    simp only [TimerNode.has_open_record, decide_eq_true_eq]
    omega
  · intro hcontra
    have h1 := hClvl
    rw [← hC0, hcontra] at h1
    simp only [List.length_append, List.length_cons, List.length_nil]
      at h1 hXlvl
    omega
  · intro m hm
    exact bookkeeping_open_count (stateInv_bookkeeping hinv' m hm)

theorem claim_C10_witness :
    ∃ s' C, ScopeTimer.begin ⟨some ["a"],
        [("a", TimerNode.mk "a" [⟨0, none⟩] 0 [] 0 true none false)], none⟩
        "a" 1 = .ok s' ∧
      s'.active_node = some (["a"] ++ ["a"]) ∧
      ["a"] ++ ["a"] ≠ ["a"] ∧
      rootsGetAt s'.root_nodes ["a"] =
        some ((TimerNode.mk "a" [⟨0, none⟩] 0 [] 0 true none
          false).begin_branch "a" 1) ∧
      ((TimerNode.mk "a" [⟨0, none⟩] 0 [] 0 true none
        false).begin_branch "a" 1).records =
        (TimerNode.mk "a" [⟨0, none⟩] 0 [] 0 true none false).records ∧
      ((TimerNode.mk "a" [⟨0, none⟩] 0 [] 0 true none
        false).begin_branch "a" 1).ncall =
        (TimerNode.mk "a" [⟨0, none⟩] 0 [] 0 true none false).ncall ∧
      rootsGetAt s'.root_nodes (["a"] ++ ["a"]) = some C ∧
      C = ((TimerNode.mk "a" [⟨0, none⟩] 0 [] 0 true none
        false).childTemplate "a").begin_record 1 ∧
      C.name = "a" ∧
      C.level =
        (TimerNode.mk "a" [⟨0, none⟩] 0 [] 0 true none false).level + 1 ∧
      C.records = ((TimerNode.mk "a" [⟨0, none⟩] 0 [] 0 true none
        false).childTemplate "a").records ++ [{ begin := 1 }] ∧
      C.has_open_record = true ∧
      C ≠ TimerNode.mk "a" [⟨0, none⟩] 0 [] 0 true none false ∧
      (∀ m ∈ s'.allNodes,
        (m.records.filter (fun r => r.end_.isNone)).length ≤ 1) :=
  claim_C10 (Reachable.step Reachable.init
    (show ScopeTimer.step TimerThreadLocal.init (.begin "a" 0) =
      .ok ⟨some ["a"],
        [("a", TimerNode.mk "a" [⟨0, none⟩] 0 [] 0 true none false)],
        none⟩ from rfl)) rfl rfl "a" 1

/-- C9: after `reset()` the calling thread's root mapping is empty and
its active pointer is idle; a following `begin`/`end` pair builds a
fresh single-root tree with one closed record; the states of all other
threads are untouched. -/
theorem claim_C9 (m : ThreadTable) (tid : Nat) (name : String)
    (t1 t2 : ℚ) :
    (m.reset tid) tid = ⟨none, [], none⟩ ∧
    ((m.reset tid) tid).root_nodes = [] ∧
    ((m.reset tid) tid).active_node = none ∧
    (∀ t, t ≠ tid → (m.reset tid) t = m t) ∧
    (∃ s1 s2, ScopeTimer.begin ((m.reset tid) tid) name t1 = .ok s1 ∧
      s1.active_node = some [name] ∧
      s1.root_nodes = [(name, TimerNode.mk name [⟨t1, none⟩] 0 [] 0 true
        none false)] ∧
      ScopeTimer.end_ s1 name t2 = .ok s2 ∧
      s2.active_node = none ∧
      s2.root_nodes = [(name, TimerNode.mk name [⟨t1, some t2⟩] 0 [] 1 true
        none false)]) := by
  have hself : (m.reset tid) tid = ⟨none, [], none⟩ := by
    simp [ThreadTable.reset, ScopeTimer.reset, TimerThreadLocal.reset]
  refine ⟨hself, by rw [hself], by rw [hself], ?_, ?_⟩
  · intro t ht
    simp [ThreadTable.reset, ht]
  · refine ⟨⟨some [name], [(name, TimerNode.mk name [⟨t1, none⟩] 0 [] 0 true
      none false)], none⟩, ⟨none, [(name, TimerNode.mk name [⟨t1, some t2⟩]
      0 [] 1 true none false)], none⟩, ?_, rfl, rfl, ?_, rfl, rfl⟩
    · rw [hself]
      show ScopeTimer.begin ⟨none, [], none⟩ name t1 = _
      rw [ScopeTimer.begin]
      rfl
    · rw [ScopeTimer.end_]
      show (match rootsGetAt [(name, TimerNode.mk name [⟨t1, none⟩] 0 [] 0
          true none false)] [name] with
        | none => Except.error TimerError.invalidState
        | some cur => _) = _
      rw [show rootsGetAt [(name, TimerNode.mk name [⟨t1, none⟩] 0 [] 0
          true none false)] [name] = some (TimerNode.mk name [⟨t1, none⟩]
          0 [] 0 true none false) from by
        rw [rootsGetAt]
        simp [List.lookup]]
      simp only [TimerNode.name_mk, ne_eq, not_true_eq_false, if_false,
        ite_false]
      rw [show rootsModifyAtE [(name, TimerNode.mk name [⟨t1, none⟩] 0 []
          0 true none false)] [name] (fun x => x.end_record t2) =
          .ok [(name, TimerNode.mk name [⟨t1, some t2⟩] 0 [] 1 true none
            false)] from ?_]
      · rfl
      · rw [rootsModifyAtE]
        simp only [List.lookup, beq_self_eq_true]
        rw [show (TimerNode.mk name [⟨t1, none⟩] 0 [] 0 true none
            false).modifyAtE (fun x => x.end_record t2) [] =
            (TimerNode.mk name [⟨t1, none⟩] 0 [] 0 true none
              false).end_record t2 from rfl]
        rw [end_record_ok t2 (by simp)]
        simp [replaceEntry]

theorem claim_C9_witness :
    ThreadTable.reset (fun _ => TimerThreadLocal.init) 0 1 =
      TimerThreadLocal.init ∧
    ThreadTable.reset (fun _ => TimerThreadLocal.init) 0 0 =
      ⟨none, [], none⟩ := by
  obtain ⟨h1, _, _, h4, _⟩ :=
    claim_C9 (fun _ => TimerThreadLocal.init) 0 "a" 0 1
  exact ⟨h4 1 (by decide), h1⟩

/-- C7: `get_or_create_branch` is deterministic and idempotent — the
first call for a fresh name creates and registers a child one level
deeper under that key, and every later call with the same name returns
exactly that stored child without touching the map; keys stay unique. -/
theorem claim_C7 (n : TimerNode) (name : String) :
    (∀ c, n.branch_nodes.lookup name = some c →
      n.get_or_create_branch name = (c, n)) ∧
    (n.branch_nodes.lookup name = none →
      (n.get_or_create_branch name).1 = TimerNode.new name (n.level + 1) ∧
      (n.get_or_create_branch name).1.level = n.level + 1 ∧
      (n.get_or_create_branch name).2.branch_nodes =
        n.branch_nodes ++ [(name, TimerNode.new name (n.level + 1))] ∧
      (n.get_or_create_branch name).2.branch_nodes.lookup name =
        some (TimerNode.new name (n.level + 1)) ∧
      (n.get_or_create_branch name).2.get_or_create_branch name =
        (TimerNode.new name (n.level + 1), (n.get_or_create_branch name).2)) ∧
    ((n.branch_nodes.map Prod.fst).Nodup →
      ((n.get_or_create_branch name).2.branch_nodes.map Prod.fst).Nodup) := by
  refine ⟨?_, ?_, ?_⟩
  · intro c hc
    rw [TimerNode.get_or_create_branch, hc]
  · intro hnone
    have hmain : n.get_or_create_branch name =
        (TimerNode.new name (n.level + 1),
          TimerNode.mk n.name n.records n.level
            (n.branch_nodes ++ [(name, TimerNode.new name (n.level + 1))])
            n.ncall n.is_root n.stats n.preprocessed) := by
      rw [TimerNode.get_or_create_branch, hnone]
    have hlook : (n.branch_nodes ++
        [(name, TimerNode.new name (n.level + 1))]).lookup name =
        some (TimerNode.new name (n.level + 1)) := by
      rw [lookup_append_none hnone]
      simp [List.lookup]
    refine ⟨by rw [hmain], by rw [hmain]; simp, by rw [hmain]; rfl, ?_, ?_⟩
    · rw [hmain]
      exact hlook
    · rw [hmain]
      rw [TimerNode.get_or_create_branch]
      simp only [TimerNode.branch_nodes_mk]
      rw [hlook]
  · intro hnd
    cases hc : n.branch_nodes.lookup name with
    | some c =>
      rw [TimerNode.get_or_create_branch, hc]
      exact hnd
    | none =>
      rw [TimerNode.get_or_create_branch, hc]
      simp only [TimerNode.branch_nodes_mk, List.map_append, List.map_cons,
        List.map_nil]
      exact nodup_keys_append_single hnd (lookup_none_iff.mp hc)

theorem claim_C7_witness :
    ((TimerNode.new "a" 0).get_or_create_branch "b").1 =
      TimerNode.new "b" 1 ∧
    ((TimerNode.new "a" 0).get_or_create_branch "b").1.level = 1 ∧
    ((TimerNode.new "a" 0).get_or_create_branch "b").2.get_or_create_branch
      "b" = (TimerNode.new "b" 1,
        ((TimerNode.new "a" 0).get_or_create_branch "b").2) := by
  obtain ⟨hsome, hnone, hnd⟩ := claim_C7 (TimerNode.new "a" 0) "b"
  obtain ⟨h1, h2, h3, h4, h5⟩ := hnone rfl
  exact ⟨h1, h2, h5⟩

/-! ## `core.py`, legacy class `TimerRecord` (dict-based node) -/

/-- `core.py`, one value of the `time_records` dict:
`{'begin': …, 'end': 0, 'elapsed': 0}`. -/
structure LegacyEntry where
  begin : ℚ := 0
  end_ : ℚ := 0
  elapsed : ℚ := 0
deriving Repr, DecidableEq

/-- `core.py`, class `TimerRecord`.  Only the fields `end_record`
reads or writes are modelled (`time_records`, `ncall`) together with the
plain data fields; the child map and parent reference are untouched by
`end_record` and are omitted here. -/
structure LegacyTimerRecord where
  name : String
  time_records : List (Nat × LegacyEntry)
  ncall : Nat
  top : Bool
  level : Nat
deriving Repr, DecidableEq

/-- Python dict update `d[k] = v` for an existing integer key. -/
def replaceLegacyEntry : List (Nat × LegacyEntry) → Nat → LegacyEntry →
    List (Nat × LegacyEntry)
  | [], _, _ => []
  | (k1, v1) :: rest, k, v =>
    if k1 = k then (k, v) :: replaceLegacyEntry rest k v
    else (k1, v1) :: replaceLegacyEntry rest k v

/-- `core.py`, `TimerRecord.end_record`: silently returns when key
`ncall` is absent from `time_records`; otherwise sets `end`, computes
`elapsed = end - begin`, and increments `ncall`. -/
def LegacyTimerRecord.end_record (t : LegacyTimerRecord) (now : ℚ) :
    LegacyTimerRecord :=
  match t.time_records.lookup t.ncall with
  | none => t
  | some e =>
    { t with
      time_records := replaceLegacyEntry t.time_records t.ncall
        { e with end_ := now, elapsed := now - e.begin },
      ncall := t.ncall + 1 }

/-- C8 as stated is false for `TimerNode.end_record` (`node.py`): on a
node with no open record it raises an `IndexError` instead of failing
silently with the node unchanged. -/
theorem claim_C8_counterexample :
    (TimerNode.new "a" 0).end_record 5 = .error .indexError ∧
    (TimerNode.new "a" 0).end_record 5 ≠
      .ok (TimerNode.new "a" 0) := by
  constructor
  · rfl
  · intro h
    cases h

/-- C8 (amended): with at least one open record, `end_record` closes the
record at index `ncall` with `end = now` and increments `ncall`
(`TimerNode` additionally clears `preprocessed`); with no open record,
`TimerNode.end_record` (`node.py`) raises an `IndexError`, while the
legacy `TimerRecord.end_record` (`core.py`) is the variant that fails
silently, leaving `time_records` and `ncall` unchanged.  The
protocol-level guard lives in the Facade. -/
theorem claim_C8 :
    (∀ (n : TimerNode) (now : ℚ),
      n.has_open_record = true →
      n.end_record now = .ok (.mk n.name
        (n.records.set n.ncall
          { n.records.getD n.ncall default with end_ := some now })
        n.level n.branch_nodes (n.ncall + 1) n.is_root n.stats false)) ∧
    (∀ (n : TimerNode) (now : ℚ),
      n.has_open_record = false →
      n.end_record now = .error .indexError) ∧
    (∀ (t : LegacyTimerRecord) (now : ℚ),
      t.time_records.lookup t.ncall = none →
      t.end_record now = t) := by
  refine ⟨?_, ?_, ?_⟩
  · intro n now hopen
    have hlt : n.ncall < n.records.length := by
      simpa [TimerNode.has_open_record] using hopen
    rw [end_record_ok now hlt, List.getD_eq_getElem n.records default hlt]
    rfl
  · intro n now hclosed
    have hge : ¬ n.ncall < n.records.length := by
      simpa [TimerNode.has_open_record] using hclosed
    rw [TimerNode.end_record, dif_neg hge]
  · intro t now hnone
    rw [LegacyTimerRecord.end_record, hnone]

theorem claim_C8_witness :
    (TimerNode.mk "a" [⟨3, none⟩] 0 [] 0 true none false).end_record 5 =
      .ok (TimerNode.mk "a" [⟨3, some 5⟩] 0 [] 1 true none false) ∧
    (TimerNode.new "b" 0).end_record 5 = .error .indexError ∧
    LegacyTimerRecord.end_record ⟨"c", [], 0, true, 0⟩ 5 =
      ⟨"c", [], 0, true, 0⟩ := by
  refine ⟨?_, claim_C8.2.1 (TimerNode.new "b" 0) 5 rfl,
    claim_C8.2.2 ⟨"c", [], 0, true, 0⟩ 5 rfl⟩
  have h := claim_C8.1 (TimerNode.mk "a" [⟨3, none⟩] 0 [] 0 true none false)
    5 rfl
  rw [h]
  rfl

/-- C2 as stated is false: after a stats pass has cached stats, closing a
new record does **not** invalidate them — `total_time` keeps returning
the stale cached total (`1`) although the total over all closed records
is now `4`. -/
theorem claim_C2_counterexample :
    ∃ n', (((TimerNode.mk "a" [⟨0, some 1⟩] 0 [] 1 true none
        false).build_stats_recursive).begin_record 2).end_record 5 =
      .ok n' ∧
      n'.total_time = 1 ∧ n'._get_total_time = 4 ∧
      n'.total_time ≠ n'._get_total_time := by
  have hbuild : (TimerNode.mk "a" [⟨0, some 1⟩] 0 [] 1 true none
      false).build_stats_recursive =
      TimerNode.mk "a" [⟨0, some 1⟩] 0 [] 1 true
        (some ⟨1, 1, 1, 1, 0⟩) true := by
    simp only [TimerNode.build_stats_recursive, TimerNode._build_stats]
    norm_num [TimerNode.buildStatsChildren,
      TimerNode._get_total_time, TimerNode._get_min_time,
      TimerNode._get_max_time, TimerNode._get_avg_time,
      TimerNode._get_var_time, TimerNode.pymin, TimerNode.pymax,
      TimerRecord.elapsed]
  have h2 : (TimerNode.mk "a" [⟨0, some 1⟩, ⟨2, some 5⟩] 0 [] 2 true
      (some ⟨1, 1, 1, 1, 0⟩) false)._get_total_time = 4 := by
    norm_num [TimerNode._get_total_time, TimerRecord.elapsed]
  refine ⟨TimerNode.mk "a" [⟨0, some 1⟩, ⟨2, some 5⟩] 0 [] 2 true
    (some ⟨1, 1, 1, 1, 0⟩) false, ?_, rfl, h2, ?_⟩
  · rw [hbuild]
    rw [show (TimerNode.mk "a" [⟨0, some 1⟩] 0 [] 1 true
        (some ⟨1, 1, 1, 1, 0⟩) true).begin_record 2 =
      TimerNode.mk "a" [⟨0, some 1⟩, ⟨2, none⟩] 0 [] 1 true
        (some ⟨1, 1, 1, 1, 0⟩) true from rfl]
    rw [end_record_ok 5 (by simp)]
    rfl
  · rw [h2]
    rw [show (TimerNode.mk "a" [⟨0, some 1⟩, ⟨2, some 5⟩] 0 [] 2 true
      (some ⟨1, 1, 1, 1, 0⟩) false).total_time = 1 from rfl]
    norm_num

/-- C2 (amended): closing a record clears only the `preprocessed` flag;
the cached `stats` object is left in place.  Each query accessor returns
the cached field whenever `stats` is present — fresh or stale — and
computes on demand from the closed records only when `stats` is absent. -/
theorem claim_C2 (n : TimerNode) (now : ℚ) (n' : TimerNode)
    (h : n.end_record now = .ok n') :
    n'.preprocessed = false ∧
    n'.stats = n.stats ∧
    (n'.stats = none →
      n'.total_time = n'._get_total_time ∧
      n'.min_time = n'._get_min_time ∧
      n'.max_time = n'._get_max_time ∧
      n'.avg_time = n'._get_avg_time ∧
      n'.var_time = n'._get_var_time) ∧
    (∀ st, n'.stats = some st →
      n'.total_time = st.total ∧ n'.min_time = st.min_ ∧
      n'.max_time = st.max_ ∧ n'.avg_time = st.avg ∧
      n'.var_time = st.var_) := by
  have hacc1 : ∀ m : TimerNode, m.stats = none →
      m.total_time = m._get_total_time ∧
      m.min_time = m._get_min_time ∧
      m.max_time = m._get_max_time ∧
      m.avg_time = m._get_avg_time ∧
      m.var_time = m._get_var_time := by
    intro m hs
    simp only [TimerNode.total_time, TimerNode.min_time, TimerNode.max_time,
      TimerNode.avg_time, TimerNode.var_time, hs]
    exact ⟨trivial, trivial, trivial, trivial, trivial⟩
  have hacc2 : ∀ (m : TimerNode) (st : TimerStats), m.stats = some st →
      m.total_time = st.total ∧ m.min_time = st.min_ ∧
      m.max_time = st.max_ ∧ m.avg_time = st.avg ∧
      m.var_time = st.var_ := by
    intro m st hs
    simp only [TimerNode.total_time, TimerNode.min_time, TimerNode.max_time,
      TimerNode.avg_time, TimerNode.var_time, hs]
    exact ⟨trivial, trivial, trivial, trivial, trivial⟩
  by_cases hlt : n.ncall < n.records.length
  · rw [end_record_ok now hlt] at h
    injection h with h
    subst h
    refine ⟨rfl, rfl, hacc1 _, fun st => hacc2 _ st⟩
  · rw [TimerNode.end_record, dif_neg hlt] at h
    cases h

theorem claim_C2_witness :
    (TimerNode.mk "b" [⟨3, some 5⟩] 0 [] 1 true none false).preprocessed =
      false ∧
    (TimerNode.mk "b" [⟨3, some 5⟩] 0 [] 1 true none false).total_time =
      (TimerNode.mk "b" [⟨3, some 5⟩] 0 [] 1 true none
        false)._get_total_time := by
  obtain ⟨h1, h2, h3, h4⟩ := claim_C2
    (TimerNode.mk "b" [⟨3, none⟩] 0 [] 0 true none false) 5
    (TimerNode.mk "b" [⟨3, some 5⟩] 0 [] 1 true none false) rfl
  exact ⟨h1, (h3 rfl).1⟩

/-! ## Python `min`/`max` semantics -/

theorem foldl_min_le_init (l : List ℚ) : ∀ a : ℚ, l.foldl min a ≤ a := by
  induction l with
  | nil => intro a; exact le_refl a
  | cons x xs ih =>
    intro a
    calc (x :: xs).foldl min a = xs.foldl min (min a x) := rfl
    _ ≤ min a x := ih (min a x)
    _ ≤ a := min_le_left a x

theorem foldl_min_le_mem (l : List ℚ) :
    ∀ a : ℚ, ∀ x ∈ l, l.foldl min a ≤ x := by
  induction l with
  | nil => intro a x hx; simp at hx
  | cons y ys ih =>
    intro a x hx
    rcases List.mem_cons.mp hx with rfl | hx
    · calc (x :: ys).foldl min a = ys.foldl min (min a x) := rfl
      _ ≤ min a x := foldl_min_le_init ys (min a x)
      _ ≤ x := min_le_right a x
    · exact ih (min a y) x hx

theorem foldl_min_mem_or_init (l : List ℚ) :
    ∀ a : ℚ, l.foldl min a = a ∨ l.foldl min a ∈ l := by
  induction l with
  | nil => intro a; exact Or.inl rfl
  | cons x xs ih =>
    intro a
    rcases ih (min a x) with h | h
    · rcases min_choice a x with hm | hm
      · exact Or.inl (by rw [show (x :: xs).foldl min a =
          xs.foldl min (min a x) from rfl, h, hm])
      · refine Or.inr (List.mem_cons.mpr (Or.inl ?_))
        rw [show (x :: xs).foldl min a = xs.foldl min (min a x) from rfl,
          h, hm]
    · exact Or.inr (List.mem_cons.mpr (Or.inr h))

theorem pymin_spec {l : List ℚ} (h : l ≠ []) :
    TimerNode.pymin l ∈ l ∧ ∀ x ∈ l, TimerNode.pymin l ≤ x := by
  cases l with
  | nil => exact absurd rfl h
  | cons x xs =>
    constructor
    · rcases foldl_min_mem_or_init xs x with h1 | h1
      · rw [TimerNode.pymin, h1]; exact List.mem_cons_self _ _
      · rw [TimerNode.pymin]; exact List.mem_cons_of_mem _ h1
    · intro y hy
      rcases List.mem_cons.mp hy with rfl | hy
      · exact foldl_min_le_init xs y
      · exact foldl_min_le_mem xs x y hy

theorem foldl_max_init_le (l : List ℚ) : ∀ a : ℚ, a ≤ l.foldl max a := by
  induction l with
  | nil => intro a; exact le_refl a
  | cons x xs ih =>
    intro a
    calc a ≤ max a x := le_max_left a x
    _ ≤ xs.foldl max (max a x) := ih (max a x)
    _ = (x :: xs).foldl max a := rfl

theorem foldl_max_mem_le (l : List ℚ) :
    ∀ a : ℚ, ∀ x ∈ l, x ≤ l.foldl max a := by
  induction l with
  | nil => intro a x hx; simp at hx
  | cons y ys ih =>
    intro a x hx
    rcases List.mem_cons.mp hx with rfl | hx
    · calc x ≤ max a x := le_max_right a x
      _ ≤ ys.foldl max (max a x) := foldl_max_init_le ys (max a x)
      _ = (x :: ys).foldl max a := rfl
    · exact ih (max a y) x hx

theorem foldl_max_mem_or_init (l : List ℚ) :
    ∀ a : ℚ, l.foldl max a = a ∨ l.foldl max a ∈ l := by
  induction l with
  | nil => intro a; exact Or.inl rfl
  | cons x xs ih =>
    intro a
    rcases ih (max a x) with h | h
    · rcases max_choice a x with hm | hm
      · exact Or.inl (by rw [show (x :: xs).foldl max a =
          xs.foldl max (max a x) from rfl, h, hm])
      · refine Or.inr (List.mem_cons.mpr (Or.inl ?_))
        rw [show (x :: xs).foldl max a = xs.foldl max (max a x) from rfl,
          h, hm]
    · exact Or.inr (List.mem_cons.mpr (Or.inr h))

theorem pymax_spec {l : List ℚ} (h : l ≠ []) :
    TimerNode.pymax l ∈ l ∧ ∀ x ∈ l, x ≤ TimerNode.pymax l := by
  cases l with
  | nil => exact absurd rfl h
  | cons x xs =>
    constructor
    · rcases foldl_max_mem_or_init xs x with h1 | h1
      · rw [TimerNode.pymax, h1]; exact List.mem_cons_self _ _
      · rw [TimerNode.pymax]; exact List.mem_cons_of_mem _ h1
    · intro y hy
      rcases List.mem_cons.mp hy with rfl | hy
      · exact foldl_max_init_le xs y
      · exact foldl_max_mem_le xs x y hy

/-- C3: with `n` closed records (and possibly one trailing open record),
the aggregates are computed over the closed records only — total is
their sum, min/max are their minimum/maximum, avg is `total / n`,
variance is the population variance `mean((elapsed_i - avg)^2)`; min,
max, avg are `0` for `n = 0` and variance is `0` for `n < 2`; appending
an open record changes no aggregate. -/
theorem claim_C3 (n : TimerNode)
    (hclosed : ∀ r ∈ n.records.take n.ncall, r.end_ ≠ none)
    (hlen : n.ncall ≤ n.records.length) :
    n._get_total_time =
      ((n.records.take n.ncall).map TimerRecord.elapsed).sum ∧
    (n.ncall = 0 → n._get_min_time = 0 ∧ n._get_max_time = 0 ∧
      n._get_avg_time = 0) ∧
    (n.ncall ≠ 0 →
      n._get_min_time ∈ (n.records.take n.ncall).map TimerRecord.elapsed ∧
      (∀ x ∈ (n.records.take n.ncall).map TimerRecord.elapsed,
        n._get_min_time ≤ x) ∧
      n._get_max_time ∈ (n.records.take n.ncall).map TimerRecord.elapsed ∧
      (∀ x ∈ (n.records.take n.ncall).map TimerRecord.elapsed,
        x ≤ n._get_max_time) ∧
      n._get_avg_time = n._get_total_time / (n.ncall : ℚ)) ∧
    (n.ncall < 2 → n._get_var_time = 0) ∧
    (2 ≤ n.ncall → n._get_var_time =
      ((n.records.take n.ncall).map
        (fun r => (r.elapsed - n._get_avg_time) ^ 2)).sum / (n.ncall : ℚ)) ∧
    (∀ r : TimerRecord, r.end_ = none →
      (TimerNode.mk n.name (n.records ++ [r]) n.level n.branch_nodes
        n.ncall n.is_root n.stats n.preprocessed)._get_total_time =
        n._get_total_time ∧
      (TimerNode.mk n.name (n.records ++ [r]) n.level n.branch_nodes
        n.ncall n.is_root n.stats n.preprocessed)._get_min_time =
        n._get_min_time ∧
      (TimerNode.mk n.name (n.records ++ [r]) n.level n.branch_nodes
        n.ncall n.is_root n.stats n.preprocessed)._get_max_time =
        n._get_max_time ∧
      (TimerNode.mk n.name (n.records ++ [r]) n.level n.branch_nodes
        n.ncall n.is_root n.stats n.preprocessed)._get_avg_time =
        n._get_avg_time ∧
      (TimerNode.mk n.name (n.records ++ [r]) n.level n.branch_nodes
        n.ncall n.is_root n.stats n.preprocessed)._get_var_time =
        n._get_var_time) := by
  refine ⟨?_, ?_, ?_, ?_, ?_, ?_⟩
  · rw [TimerNode._get_total_time]
    by_cases h0 : n.ncall = 0
    · rw [if_pos h0, h0]
      simp
    · rw [if_neg h0]
  · intro h0
    rw [TimerNode._get_min_time, if_pos h0, TimerNode._get_max_time,
      if_pos h0, TimerNode._get_avg_time, if_pos h0]
    exact ⟨by trivial, by trivial, by trivial⟩
  · intro h0
    have hne : (n.records.take n.ncall).map TimerRecord.elapsed ≠ [] := by
      intro hcon
      have := congrArg List.length hcon
      simp only [List.length_map, List.length_take, List.length_nil] at this
      omega
    obtain ⟨hminmem, hminle⟩ := pymin_spec hne
    obtain ⟨hmaxmem, hmaxle⟩ := pymax_spec hne
    rw [TimerNode._get_min_time, if_neg h0, TimerNode._get_max_time,
      if_neg h0, TimerNode._get_avg_time, if_neg h0]
    exact ⟨hminmem, hminle, hmaxmem, hmaxle, rfl⟩
  · intro h2
    rw [TimerNode._get_var_time, if_pos h2]
  · intro h2
    rw [TimerNode._get_var_time, if_neg (by omega)]
  · intro r hr
    have htake : (n.records ++ [r]).take n.ncall = n.records.take n.ncall :=
      List.take_append_of_le_length hlen
    rw [TimerNode._get_total_time, TimerNode._get_total_time,
      TimerNode._get_min_time, TimerNode._get_min_time,
      TimerNode._get_max_time, TimerNode._get_max_time,
      TimerNode._get_avg_time, TimerNode._get_avg_time,
      TimerNode._get_var_time, TimerNode._get_var_time]
    simp only [TimerNode.records_mk, TimerNode.ncall_mk, htake]
    refine ⟨by trivial, by trivial, by trivial, ?_, ?_⟩
    · rw [TimerNode._get_total_time, TimerNode._get_total_time]
      simp only [TimerNode.records_mk, TimerNode.ncall_mk, htake]
    · rw [TimerNode._get_avg_time, TimerNode._get_avg_time,
        TimerNode._get_total_time, TimerNode._get_total_time]
      simp only [TimerNode.records_mk, TimerNode.ncall_mk, htake]

theorem claim_C3_witness :
    (TimerNode.mk "w" [⟨0, some 2⟩, ⟨3, some 4⟩, ⟨10, none⟩] 0 [] 2 true
      none false)._get_total_time = 3 ∧
    (TimerNode.mk "w" [⟨0, some 2⟩, ⟨3, some 4⟩, ⟨10, none⟩] 0 [] 2 true
      none false)._get_avg_time =
      (TimerNode.mk "w" [⟨0, some 2⟩, ⟨3, some 4⟩, ⟨10, none⟩] 0 [] 2 true
        none false)._get_total_time /
        ((TimerNode.mk "w" [⟨0, some 2⟩, ⟨3, some 4⟩, ⟨10, none⟩] 0 [] 2
          true none false).ncall : ℚ) := by
  obtain ⟨h1, h2, h3, h4, h5, h6⟩ := claim_C3
    (TimerNode.mk "w" [⟨0, some 2⟩, ⟨3, some 4⟩, ⟨10, none⟩] 0 [] 2 true
      none false) (by decide) (by decide)
  constructor
  · rw [h1]
    norm_num [TimerRecord.elapsed]
  · exact (h3 (by decide)).2.2.2.2

theorem infer_unit_eq (w : ℚ) (u : TimeUnitReq) (p : PrecisionReq) :
    (infer_time_property w u p).unit = _infer_time_unit w u := rfl

theorem infer_scale_eq (w : ℚ) (u : TimeUnitReq) (p : PrecisionReq) :
    (infer_time_property w u p).scale =
      _infer_time_scaling (_infer_time_unit w u) := rfl

theorem infer_precision_eq (w : ℚ) (u : TimeUnitReq) (p : PrecisionReq) :
    (infer_time_property w u p).precision =
      _infer_time_precision w (_infer_time_unit w u)
        (_infer_time_scaling (_infer_time_unit w u)) p := rfl

/-- C4: unit inference picks seconds for `worst ≥ 1`, milliseconds for
`worst ≥ 0.001`, else microseconds (explicit units bypass inference);
the scale is 1 / 1000 / 1000000; with auto precision, microseconds give
precision 1, and for seconds/milliseconds the precision is 0 when the
scaled value has at least 6 integer digits, 6 when it has none, and
`6 - d` for `d` integer digits otherwise; explicit precision is returned
unchanged.  The three boundary examples of the spec hold. -/
theorem claim_C4 (worst : ℚ) (u : TimeUnitReq) (p : PrecisionReq)
    (i : Int) :
    (infer_time_property worst .auto p).unit =
      (if worst ≥ 1 then .s else if worst ≥ 1 / 1000 then .ms else .us) ∧
    (infer_time_property worst .s p).unit = .s ∧
    (infer_time_property worst .ms p).unit = .ms ∧
    (infer_time_property worst .us p).unit = .us ∧
    ((infer_time_property worst u p).unit = .s →
      (infer_time_property worst u p).scale = 1) ∧
    ((infer_time_property worst u p).unit = .ms →
      (infer_time_property worst u p).scale = 1000) ∧
    ((infer_time_property worst u p).unit = .us →
      (infer_time_property worst u p).scale = 1000000) ∧
    (infer_time_property worst u (.val i)).precision = i ∧
    ((infer_time_property worst u .auto).unit = .us →
      (infer_time_property worst u .auto).precision = 1) ∧
    ((infer_time_property worst u .auto).unit ≠ .us →
      (ratTrunc (worst *
          ((infer_time_property worst u .auto).scale : ℚ)) = 0 →
        (infer_time_property worst u .auto).precision = 6) ∧
      (∀ d : ℕ, 1 ≤ d →
        10 ^ (d - 1) ≤ (ratTrunc (worst *
          ((infer_time_property worst u .auto).scale : ℚ))).natAbs →
        (ratTrunc (worst *
          ((infer_time_property worst u .auto).scale : ℚ))).natAbs <
            10 ^ d →
        (infer_time_property worst u .auto).precision =
          (if (d : Int) ≥ 6 then 0 else 6 - (d : Int)))) ∧
    (infer_time_property 1 .auto .auto).unit = .s ∧
    (infer_time_property (9 / 10000) .auto .auto).unit = .us ∧
    (infer_time_property (9 / 10000) .auto .auto).precision = 1 ∧
    (infer_time_property 1234567 .auto .auto).unit = .s ∧
    (infer_time_property 1234567 .auto .auto).precision = 0 := by
  refine ⟨rfl, rfl, rfl, rfl, ?_, ?_, ?_, rfl, ?_, ?_, ?_, ?_, ?_, ?_, ?_⟩
  · intro h
    rw [infer_unit_eq] at h
    rw [infer_scale_eq, h]
    rfl
  · intro h
    rw [infer_unit_eq] at h
    rw [infer_scale_eq, h]
    rfl
  · intro h
    rw [infer_unit_eq] at h
    rw [infer_scale_eq, h]
    rfl
  · intro h
    rw [infer_unit_eq] at h
    rw [infer_precision_eq, h]
    rfl
  · intro hne
    rw [infer_unit_eq] at hne
    constructor
    · intro h0
      rw [infer_scale_eq] at h0
      rw [infer_precision_eq, _infer_time_precision]
      rw [if_neg hne]
      rw [show _num_digits (worst *
          (_infer_time_scaling (_infer_time_unit worst u) : ℚ)) = 0 from by
        rw [_num_digits, h0]
        rfl]
      rfl
    · intro d hd hlow hhigh
      rw [infer_scale_eq] at hlow hhigh
      set x := ratTrunc (worst *
        (_infer_time_scaling (_infer_time_unit worst u) : ℚ)) with hx
      have hxne : x ≠ 0 := by
        intro hc
        rw [hc] at hlow
        simp only [Int.natAbs_zero] at hlow
        have : 0 < 10 ^ (d - 1) := Nat.pos_pow_of_pos _ (by omega)
        omega
      have hlog : Nat.log 10 x.natAbs = d - 1 := by
        refine Nat.log_eq_of_pow_le_of_lt_pow hlow ?_
        rw [Nat.sub_add_cancel hd]
        exact hhigh
      have hdig : _num_digits (worst *
          (_infer_time_scaling (_infer_time_unit worst u) : ℚ)) = (d : Int) := by
        rw [_num_digits, ← hx, if_neg hxne, hlog]
        omega
      rw [infer_precision_eq, _infer_time_precision]
      rw [if_neg hne, hdig]
      by_cases h6 : (d : Int) ≥ 6
      · rw [if_pos h6, if_pos h6]
      · rw [if_neg h6, if_neg h6, if_neg (by omega)]
  · rfl
  · norm_num [infer_unit_eq, _infer_time_unit]
  · norm_num [infer_precision_eq, _infer_time_precision, _infer_time_unit]
  · norm_num [infer_unit_eq, _infer_time_unit]
  · have hlog : Nat.log 10 1234567 = 6 :=
      Nat.log_eq_of_pow_le_of_lt_pow (by norm_num) (by norm_num)
    rw [infer_precision_eq]
    rw [show _infer_time_unit 1234567 .auto = .s from by
      norm_num [_infer_time_unit]]
    rw [_infer_time_precision]
    rw [if_neg (by decide)]
    rw [show _num_digits ((1234567 : ℚ) * ((_infer_time_scaling .s) : ℚ)) =
        7 from by
      rw [_num_digits]
      rw [show ratTrunc ((1234567 : ℚ) * ((_infer_time_scaling .s) : ℚ)) =
          1234567 from by
        rw [ratTrunc]
        norm_num [_infer_time_scaling]]
      rw [if_neg (by norm_num)]
      rw [show (1234567 : Int).natAbs = 1234567 from rfl, hlog]
      norm_num]
    rfl

theorem claim_C4_witness :
    (infer_time_property 1 .auto .auto).unit = .s ∧
    (infer_time_property (9 / 10000) .auto .auto).precision = 1 ∧
    (infer_time_property 1234567 .auto .auto).precision = 0 ∧
    (infer_time_property 5 .ms (.val 3)).precision = 3 ∧
    (infer_time_property 5 .ms (.val 3)).scale = 1000 := by
  obtain ⟨c1, c2, c3, c4, c5, c6, c7, c8, c9, c10, c11, c12, c13, c14, c15⟩ :=
    claim_C4 5 .ms (.val 3) 3
  exact ⟨c11, c13, c15, c8, c6 rfl⟩

/-! ## The stats pass: purity, correctness of the cache, idempotence -/

mutual

/-- Forget the derived state of every node (cached stats and the
`preprocessed` flag), keeping names, records, levels, call counts and the
tree shape — the data `build_stats_recursive` must not touch. -/
def TimerNode.eraseStats : TimerNode → TimerNode
  | .mk n r l b c i _ _ =>
    .mk n r l (TimerNode.eraseStatsChildren b) c i none false

/-- Recursion of `eraseStats` over the child map. -/
def TimerNode.eraseStatsChildren :
    List (String × TimerNode) → List (String × TimerNode)
  | [] => []
  | (k, child) :: rest =>
    (k, child.eraseStats) :: TimerNode.eraseStatsChildren rest

end

theorem build_stats_recursive_mk (n : String) (r : List TimerRecord)
    (l : Nat) (b : List (String × TimerNode)) (c : Nat) (i : Bool)
    (s : Option TimerStats) (p : Bool) :
    TimerNode.build_stats_recursive (.mk n r l b c i s p) =
      .mk n r l (TimerNode.buildStatsChildren b) c i
        (some ⟨(TimerNode.mk n r l b c i s p)._get_total_time,
          (TimerNode.mk n r l b c i s p)._get_min_time,
          (TimerNode.mk n r l b c i s p)._get_max_time,
          (TimerNode.mk n r l b c i s p)._get_avg_time,
          (TimerNode.mk n r l b c i s p)._get_var_time⟩) true := rfl

/-- The on-demand aggregates depend only on `records` and `ncall`. -/
theorem get_funs_congr {n m : TimerNode} (hr : n.records = m.records)
    (hc : n.ncall = m.ncall) :
    n._get_total_time = m._get_total_time ∧
    n._get_min_time = m._get_min_time ∧
    n._get_max_time = m._get_max_time ∧
    n._get_avg_time = m._get_avg_time ∧
    n._get_var_time = m._get_var_time := by
  have h1 : n._get_total_time = m._get_total_time := by
    rw [TimerNode._get_total_time, TimerNode._get_total_time, hr, hc]
  have h2 : n._get_min_time = m._get_min_time := by
    rw [TimerNode._get_min_time, TimerNode._get_min_time, hr, hc]
  have h3 : n._get_max_time = m._get_max_time := by
    rw [TimerNode._get_max_time, TimerNode._get_max_time, hr, hc]
  have h4 : n._get_avg_time = m._get_avg_time := by
    rw [TimerNode._get_avg_time, TimerNode._get_avg_time, hc, h1]
  have h5 : n._get_var_time = m._get_var_time := by
    rw [TimerNode._get_var_time, TimerNode._get_var_time, hr, hc, h4]
  exact ⟨h1, h2, h3, h4, h5⟩

mutual

theorem eraseStats_build : ∀ t : TimerNode,
    t.build_stats_recursive.eraseStats = t.eraseStats
  | .mk n r l b c i s p => by
    rw [build_stats_recursive_mk]
    rw [TimerNode.eraseStats, TimerNode.eraseStats]
    rw [eraseStatsChildren_build b]

theorem eraseStatsChildren_build : ∀ l : List (String × TimerNode),
    TimerNode.eraseStatsChildren (TimerNode.buildStatsChildren l) =
      TimerNode.eraseStatsChildren l
  | [] => rfl
  | (k, child) :: rest => by
    rw [TimerNode.buildStatsChildren, TimerNode.eraseStatsChildren,
      TimerNode.eraseStatsChildren, eraseStats_build child,
      eraseStatsChildren_build rest]

end

mutual

theorem build_idem : ∀ t : TimerNode,
    t.build_stats_recursive.build_stats_recursive = t.build_stats_recursive
  | .mk n r l b c i s p => by
    rw [build_stats_recursive_mk, build_stats_recursive_mk,
      buildStatsChildren_idem b]
    obtain ⟨h1, h2, h3, h4, h5⟩ := get_funs_congr
      (n := TimerNode.mk n r l (TimerNode.buildStatsChildren b) c i
        (some ⟨(TimerNode.mk n r l b c i s p)._get_total_time,
          (TimerNode.mk n r l b c i s p)._get_min_time,
          (TimerNode.mk n r l b c i s p)._get_max_time,
          (TimerNode.mk n r l b c i s p)._get_avg_time,
          (TimerNode.mk n r l b c i s p)._get_var_time⟩) true)
      (m := TimerNode.mk n r l b c i s p) rfl rfl
    rw [h1, h2, h3, h4, h5]

theorem buildStatsChildren_idem : ∀ l : List (String × TimerNode),
    TimerNode.buildStatsChildren (TimerNode.buildStatsChildren l) =
      TimerNode.buildStatsChildren l
  | [] => rfl
  | (k, child) :: rest => by
    rw [TimerNode.buildStatsChildren, TimerNode.buildStatsChildren,
      build_idem child, buildStatsChildren_idem rest]

end

/-- The tuple of the five query accessors of a node. -/
def accTuple (m : TimerNode) : ℚ × ℚ × ℚ × ℚ × ℚ :=
  (m.total_time, m.min_time, m.max_time, m.avg_time, m.var_time)

/-- A node whose cache is absent or agrees with its on-demand values. -/
def TimerNode.freshStats (m : TimerNode) : Prop :=
  m.stats = none ∨
    m.stats = some ⟨m._get_total_time, m._get_min_time, m._get_max_time,
      m._get_avg_time, m._get_var_time⟩

mutual

/-- After the stats pass, every node of the subtree carries cached stats
equal to its own on-demand aggregates, and is marked preprocessed. -/
theorem build_post : ∀ t : TimerNode,
    ∀ m ∈ t.build_stats_recursive.collectNodes,
    m.stats = some ⟨m._get_total_time, m._get_min_time, m._get_max_time,
      m._get_avg_time, m._get_var_time⟩ ∧ m.preprocessed = true
  | .mk n r l b c i s p => by
    intro m hm
    rw [build_stats_recursive_mk, collectNodes_def] at hm
    rcases List.mem_cons.mp hm with rfl | hm
    · refine ⟨?_, rfl⟩
      simp only [TimerNode.stats_mk]
      obtain ⟨h1, h2, h3, h4, h5⟩ := get_funs_congr
        (n := TimerNode.mk n r l b c i s p)
        (m := TimerNode.mk n r l (TimerNode.buildStatsChildren b) c i
          (some ⟨(TimerNode.mk n r l b c i s p)._get_total_time,
            (TimerNode.mk n r l b c i s p)._get_min_time,
            (TimerNode.mk n r l b c i s p)._get_max_time,
            (TimerNode.mk n r l b c i s p)._get_avg_time,
            (TimerNode.mk n r l b c i s p)._get_var_time⟩) true) rfl rfl
      rw [← h1, ← h2, ← h3, ← h4, ← h5]
    · exact build_post_children b m (by simpa using hm)

theorem build_post_children : ∀ l : List (String × TimerNode),
    ∀ m ∈ TimerNode.collectChildNodes (TimerNode.buildStatsChildren l),
    m.stats = some ⟨m._get_total_time, m._get_min_time, m._get_max_time,
      m._get_avg_time, m._get_var_time⟩ ∧ m.preprocessed = true
  | [] => by
    intro m hm
    rw [TimerNode.buildStatsChildren, TimerNode.collectChildNodes] at hm
    cases hm
  | (k, child) :: rest => by
    intro m hm
    rw [TimerNode.buildStatsChildren, TimerNode.collectChildNodes] at hm
    rcases List.mem_append.mp hm with hm | hm
    · exact build_post child m hm
    · exact build_post_children rest m hm

end

theorem accTuple_eq_gets {m : TimerNode} (h : m.freshStats) :
    accTuple m = (m._get_total_time, m._get_min_time, m._get_max_time,
      m._get_avg_time, m._get_var_time) := by
  rcases h with h | h
  · rw [accTuple]
    simp only [TimerNode.total_time, TimerNode.min_time, TimerNode.max_time,
      TimerNode.avg_time, TimerNode.var_time, h]
  · rw [accTuple]
    simp only [TimerNode.total_time, TimerNode.min_time, TimerNode.max_time,
      TimerNode.avg_time, TimerNode.var_time, h]

mutual

/-- When no node of the tree holds stale cached stats, the stats pass
does not change any query accessor anywhere in the tree. -/
theorem build_preserves : ∀ t : TimerNode,
    (∀ m ∈ t.collectNodes, m.freshStats) →
    t.build_stats_recursive.collectNodes.map accTuple =
      t.collectNodes.map accTuple
  | .mk n r l b c i s p => by
    intro hf
    rw [build_stats_recursive_mk, collectNodes_def, collectNodes_def,
      List.map_cons, List.map_cons]
    have hself : (TimerNode.mk n r l b c i s p).freshStats :=
      hf _ (by rw [collectNodes_def]; exact List.mem_cons_self _ _)
    obtain ⟨h1, h2, h3, h4, h5⟩ := get_funs_congr
      (n := TimerNode.mk n r l b c i s p)
      (m := TimerNode.mk n r l (TimerNode.buildStatsChildren b) c i
        (some ⟨(TimerNode.mk n r l b c i s p)._get_total_time,
          (TimerNode.mk n r l b c i s p)._get_min_time,
          (TimerNode.mk n r l b c i s p)._get_max_time,
          (TimerNode.mk n r l b c i s p)._get_avg_time,
          (TimerNode.mk n r l b c i s p)._get_var_time⟩) true) rfl rfl
    congr 1
    · have hb : (TimerNode.mk n r l (TimerNode.buildStatsChildren b) c i
          (some ⟨(TimerNode.mk n r l b c i s p)._get_total_time,
            (TimerNode.mk n r l b c i s p)._get_min_time,
            (TimerNode.mk n r l b c i s p)._get_max_time,
            (TimerNode.mk n r l b c i s p)._get_avg_time,
            (TimerNode.mk n r l b c i s p)._get_var_time⟩)
          true).freshStats := by
        refine Or.inr ?_
        simp only [TimerNode.stats_mk]
        rw [← h1, ← h2, ← h3, ← h4, ← h5]
      rw [accTuple_eq_gets hb, accTuple_eq_gets hself,
        ← h1, ← h2, ← h3, ← h4, ← h5]
    · simp only [TimerNode.branch_nodes_mk]
      refine build_preserves_children b ?_
      intro m hm
      refine hf m ?_
      rw [collectNodes_def]
      exact List.mem_cons_of_mem _ (by simpa using hm)

theorem build_preserves_children : ∀ l : List (String × TimerNode),
    (∀ m ∈ TimerNode.collectChildNodes l, m.freshStats) →
    (TimerNode.collectChildNodes (TimerNode.buildStatsChildren l)).map
      accTuple = (TimerNode.collectChildNodes l).map accTuple
  | [] => fun _ => rfl
  | (k, child) :: rest => by
    intro hf
    rw [TimerNode.buildStatsChildren, TimerNode.collectChildNodes,
      TimerNode.collectChildNodes, List.map_append, List.map_append]
    rw [build_preserves child
        (fun m hm => hf m (List.mem_append.mpr (Or.inl hm))),
      build_preserves_children rest
        (fun m hm => hf m (List.mem_append.mpr (Or.inr hm)))]

end

/-- C6 as stated is false: on a tree holding stale cached stats (a
record closed after an earlier pass), re-running the stats pass changes
`total_time` from the stale `1` to the fresh `4`, so the accessors do
not return the same values as before the pass. -/
theorem claim_C6_counterexample :
    ∃ n', (((TimerNode.mk "a" [⟨0, some 1⟩] 0 [] 1 true none
        false).build_stats_recursive).begin_record 2).end_record 5 =
      .ok n' ∧
      n'.total_time = 1 ∧
      n'.build_stats_recursive.total_time = 4 ∧
      n'.build_stats_recursive.total_time ≠ n'.total_time := by
  have hbuild : (TimerNode.mk "a" [⟨0, some 1⟩] 0 [] 1 true none
      false).build_stats_recursive =
      TimerNode.mk "a" [⟨0, some 1⟩] 0 [] 1 true
        (some ⟨1, 1, 1, 1, 0⟩) true := by
    simp only [TimerNode.build_stats_recursive, TimerNode._build_stats]
    norm_num [TimerNode.buildStatsChildren,
      TimerNode._get_total_time, TimerNode._get_min_time,
      TimerNode._get_max_time, TimerNode._get_avg_time,
      TimerNode._get_var_time, TimerNode.pymin, TimerNode.pymax,
      TimerRecord.elapsed]
  have h4 : (TimerNode.mk "a" [⟨0, some 1⟩, ⟨2, some 5⟩] 0 [] 2 true
      (some ⟨1, 1, 1, 1, 0⟩) false).build_stats_recursive.total_time =
      4 := by
    rw [build_stats_recursive_mk]
    simp only [TimerNode.total_time, TimerNode.stats_mk]
    norm_num [TimerNode._get_total_time, TimerRecord.elapsed]
  refine ⟨TimerNode.mk "a" [⟨0, some 1⟩, ⟨2, some 5⟩] 0 [] 2 true
    (some ⟨1, 1, 1, 1, 0⟩) false, ?_, rfl, h4, ?_⟩
  · rw [hbuild]
    rw [show (TimerNode.mk "a" [⟨0, some 1⟩] 0 [] 1 true
        (some ⟨1, 1, 1, 1, 0⟩) true).begin_record 2 =
      TimerNode.mk "a" [⟨0, some 1⟩, ⟨2, none⟩] 0 [] 1 true
        (some ⟨1, 1, 1, 1, 0⟩) true from rfl]
    rw [end_record_ok 5 (by simp)]
    rfl
  · rw [h4]
    rw [show (TimerNode.mk "a" [⟨0, some 1⟩, ⟨2, some 5⟩] 0 [] 2 true
      (some ⟨1, 1, 1, 1, 0⟩) false).total_time = 1 from rfl]
    norm_num

/-- C6 (amended): the stats pass is pure with respect to everything but
the cache (erasing the derived state of the result gives back the erased
input, and `records` are untouched); after the pass every node's cached
stats equal its on-demand aggregates and every accessor returns the
on-demand value; the pass is idempotent; and the accessors keep their
previous values across the pass whenever no node held *stale* cached
stats — a node whose cache was stale changes to the fresh value. -/
theorem claim_C6 (t : TimerNode) :
    t.build_stats_recursive.eraseStats = t.eraseStats ∧
    t.build_stats_recursive.records = t.records ∧
    (∀ m ∈ t.build_stats_recursive.collectNodes,
      m.stats = some ⟨m._get_total_time, m._get_min_time, m._get_max_time,
        m._get_avg_time, m._get_var_time⟩ ∧
      m.preprocessed = true ∧
      m.total_time = m._get_total_time ∧
      m.min_time = m._get_min_time ∧
      m.max_time = m._get_max_time ∧
      m.avg_time = m._get_avg_time ∧
      m.var_time = m._get_var_time) ∧
    t.build_stats_recursive.build_stats_recursive =
      t.build_stats_recursive ∧
    ((∀ m ∈ t.collectNodes, m.freshStats) →
      t.build_stats_recursive.collectNodes.map accTuple =
        t.collectNodes.map accTuple) := by
  refine ⟨eraseStats_build t, ?_, ?_, build_idem t, build_preserves t⟩
  · cases t with
    | mk n r l b c i s p =>
      rw [build_stats_recursive_mk]
      rfl
  · intro m hm
    obtain ⟨hst, hpre⟩ := build_post t m hm
    refine ⟨hst, hpre, ?_, ?_, ?_, ?_, ?_⟩
    · rw [TimerNode.total_time, hst]
    · rw [TimerNode.min_time, hst]
    · rw [TimerNode.max_time, hst]
    · rw [TimerNode.avg_time, hst]
    · rw [TimerNode.var_time, hst]

theorem claim_C6_witness :
    (TimerNode.mk "a" [⟨0, some 1⟩] 0 [] 1 true none
      false).build_stats_recursive.collectNodes.map accTuple =
      (TimerNode.mk "a" [⟨0, some 1⟩] 0 [] 1 true none
        false).collectNodes.map accTuple ∧
    (TimerNode.mk "a" [⟨0, some 1⟩] 0 [] 1 true none
      false).build_stats_recursive.build_stats_recursive =
      (TimerNode.mk "a" [⟨0, some 1⟩] 0 [] 1 true none
        false).build_stats_recursive := by
  obtain ⟨h1, h2, h3, h4, h5⟩ := claim_C6
    (TimerNode.mk "a" [⟨0, some 1⟩] 0 [] 1 true none false)
  refine ⟨h5 ?_, h4⟩
  intro m hm
  rw [collectNodes_def] at hm
  rcases List.mem_cons.mp hm with rfl | hm
  · exact Or.inl rfl
  · simp only [TimerNode.branch_nodes_mk] at hm
    rw [TimerNode.collectChildNodes] at hm
    cases hm
